import Mathlib

/-!
# Verification of the QAA-Insight name-normalization and analytics engine

Shallow embedding of the services in `src/backend/src/services/nameNormalizer.js`,
`src/backend/src/services/analytics.js` and the merge-overlay handler of the
client component, together with proofs settling the specification claims.

Modelling conventions:
* JavaScript strings are modelled as Lean `String`/`List Char`; `toLowerCase`,
  `toUpperCase` act per character (`Char.toLower`/`Char.toUpper`, which cover
  the ASCII range used by this code base).
* `\s` (and `trim`) use the ECMAScript white-space set, `jsIsWs`.
* JavaScript numbers are modelled as exact rationals (`Rat`); decimal literals
  appearing in survey cells are short enough to be exact in IEEE doubles, so
  exact rational arithmetic coincides with the source on the relevant domain.
* Sheet rows are association lists from header strings to cell strings (the
  Sheets transport delivers formatted string cells); a missing key reads as
  `undefined`, i.e. `''` after `String(v || '')`.
* `Array.prototype.sort` with a consistent comparator is modelled by the
  stable `List.mergeSort` with the comparator's `≤`-relation.
-/

/-- ECMAScript white space (`\s`): WhiteSpace ∪ LineTerminator code points. -/
def jsIsWs (c : Char) : Bool :=
  c.toNat = 32 || c.toNat = 9 || c.toNat = 10 || c.toNat = 11 || c.toNat = 12 ||
  c.toNat = 13 || c.toNat = 0xA0 || c.toNat = 0x1680 ||
  (0x2000 ≤ c.toNat && c.toNat ≤ 0x200A) || c.toNat = 0x2028 || c.toNat = 0x2029 ||
  c.toNat = 0x202F || c.toNat = 0x205F || c.toNat = 0x3000 || c.toNat = 0xFEFF

/-- JavaScript `String.prototype.trim`: drop leading and trailing white space. -/
def jsTrim (l : List Char) : List Char :=
  ((l.dropWhile jsIsWs).reverse.dropWhile jsIsWs).reverse

/-- JavaScript `s.trim()` on `String`s. -/
def jsTrimStr (s : String) : String := String.mk (jsTrim s.toList)

/-- JavaScript `s.toLowerCase()` (per-character, ASCII range). -/
def jsLower (s : String) : String := String.mk (s.toList.map Char.toLower)

/-- `normalized.replace(/\s+/g, ' ')`: each maximal white-space run becomes one space. -/
def collapseWs : List Char → List Char
  | [] => []
  | c :: cs =>
    if jsIsWs c then ' ' :: collapseWs (cs.dropWhile jsIsWs)
    else c :: collapseWs cs
termination_by l => l.length
decreasing_by
  all_goals simp only [List.length_cons]
  · exact Nat.lt_succ_of_le (List.dropWhile_sublist _).length_le
  · exact Nat.lt_succ_self _

/-- `normalized.replace(/\.\s*/g, ' ')`: a dot plus following white space becomes one space. -/
def stepDot : List Char → List Char
  | [] => []
  | c :: cs =>
    if c = '.' then ' ' :: stepDot (cs.dropWhile jsIsWs)
    else c :: stepDot cs
termination_by l => l.length
decreasing_by
  all_goals simp only [List.length_cons]
  · exact Nat.lt_succ_of_le (List.dropWhile_sublist _).length_le
  · exact Nat.lt_succ_self _

/-- `normalized.replace(/\s*\.\s*/g, ' ')`: white space around a dot becomes one space
(global left-to-right scan, greedy `\s*`). -/
def stepWsDot : List Char → List Char
  | [] => []
  | c :: cs =>
    if c = '.' then ' ' :: stepWsDot (cs.dropWhile jsIsWs)
    else if jsIsWs c && ((cs.dropWhile jsIsWs).head? == some '.') then
      ' ' :: stepWsDot (((cs.dropWhile jsIsWs).tail).dropWhile jsIsWs)
    else c :: stepWsDot cs
termination_by l => l.length
decreasing_by
  all_goals simp only [List.length_cons]
  · exact Nat.lt_succ_of_le (List.dropWhile_sublist _).length_le
  · refine Nat.lt_succ_of_le (le_trans (List.dropWhile_sublist _).length_le
      (le_trans (Nat.le_trans (List.tail_sublist _).length_le
        (List.dropWhile_sublist _).length_le) le_rfl))
  · exact Nat.lt_succ_self _

/-- JavaScript `s.split(' ')` (split on the literal one-space separator). -/
def splitSp : List Char → List (List Char)
  | [] => [[]]
  | c :: cs =>
    if c = ' ' then [] :: splitSp cs
    else
      match splitSp cs with
      | w :: rest => (c :: w) :: rest
      | [] => [[c]]

/-- Honorific tokens stripped from the front (source constant `PREFIXES`). -/
def PREFIXES : List (List Char) :=
  ["mr", "mr.", "mrs", "mrs.", "ms", "ms.", "dr", "dr.",
   "prof", "prof.", "professor", "shri", "smt", "kumari"].map String.toList

/-- Honorific tokens stripped from the back (source constant `SUFFIXES`). -/
def SUFFIXES : List (List Char) :=
  ["sir", "mam", "ma\x27am", "madam", "madem", "mem", "maam",
   "sahab", "sahib", "ji", "g"].map String.toList

/-- `word.charAt(0).toUpperCase() + word.slice(1).toLowerCase()`. -/
def titleCaseWord : List Char → List Char
  | [] => []
  | c :: cs => Char.toUpper c :: cs.map Char.toLower

/-- Drop the first word when there are at least two words and the first word,
with dots removed, is an honorific from `PREFIXES`. -/
def stripLeadTok (ws : List (List Char)) : List (List Char) :=
  match ws with
  | w :: rest@(_ :: _) => if (w.filter (· ≠ '.')) ∈ PREFIXES then rest else w :: rest
  | _ => ws

/-- Drop the last word when there are at least two words and the last word,
with dots removed, is an honorific from `SUFFIXES`. -/
def stripTrailTok (ws : List (List Char)) : List (List Char) :=
  if 1 < ws.length then
    match ws.getLast? with
    | some w => if (w.filter (· ≠ '.')) ∈ SUFFIXES then ws.dropLast else ws
    | none => ws
  else ws

/-- The non-empty words of the cleaned-up (lower-cased, trimmed, white-space
collapsed, dot-replaced) input of `normalizeName`. -/
def rawWords (s : String) : List (List Char) :=
  (splitSp (stepWsDot (stepDot (collapseWs (jsTrim (s.toList.map Char.toLower)))))).filter
    (· ≠ [])

/-- The word list of `normalizeName`'s result, before title casing. -/
def normWords (s : String) : List (List Char) :=
  stripTrailTok (stripLeadTok (rawWords s))

/-- `normalizeName` from `nameNormalizer.js`: lower-case, trim, collapse white
space, replace dots, strip one honorific from either end (only while more than
one word remains), then title-case each word and re-join with single spaces. -/
def normalizeName (s : String) : String :=
  String.mk (List.intercalate [' '] ((normWords s).map titleCaseWord))

/-! ## Association-list primitives for JavaScript object semantics

JavaScript objects are modelled as association lists in insertion order.
(JS enumerates integer-like keys first; every claim proved below is
insensitive to enumeration order, so insertion order is used throughout.)
An assignment to an existing key updates it in place, otherwise appends. -/

/-- `k in obj` (does the object have the key). -/
def jsAnyKey (m : List (String × β)) (k : String) : Bool :=
  m.any (fun p => p.1 == k)

/-- `obj[k]` (`none` = `undefined`). -/
def lookupA (m : List (String × β)) (k : String) : Option β :=
  (m.find? (fun p => p.1 == k)).map (·.2)

/-- `obj[k] = v`. -/
def setAssoc (m : List (String × β)) (k : String) (v : β) : List (String × β) :=
  if jsAnyKey m k then m.map (fun p => if p.1 == k then (p.1, v) else p)
  else m ++ [(k, v)]

/-- `obj[k] = f((obj[k] or d))` — the read-modify-write pattern. -/
def upsert (m : List (String × β)) (k : String) (f : β → β) (d : β) : List (String × β) :=
  setAssoc m k (f ((lookupA m k).getD d))

/-- JavaScript `a.includes(b)` (substring containment). -/
def jsIncludes (a b : String) : Bool := decide (b.toList <:+: a.toList)

/-! ## Levenshtein distance and similarity (`nameNormalizer.js`) -/

/-- The dynamic-programming table of `levenshteinDistance`:
`levDP s1 s2 i j` is `dp[i][j]`, the edit distance between the first `i`
characters of `s1` and the first `j` characters of `s2`. -/
def levDP (s1 s2 : List Char) : Nat → Nat → Nat
  | 0, j => j
  | i + 1, 0 => i + 1
  | i + 1, j + 1 =>
    if s1[i]? = s2[j]? then levDP s1 s2 i j
    else 1 + min (levDP s1 s2 i (j + 1)) (min (levDP s1 s2 (i + 1) j) (levDP s1 s2 i j))
termination_by i j => i + j
decreasing_by all_goals omega

/-- `levenshteinDistance(str1, str2)`: the full-table DP value `dp[m][n]`. -/
def levenshteinDistance (s1 s2 : String) : Nat :=
  levDP s1.toList s2.toList s1.length s2.length

/-- `similarity(str1, str2) = 1 - dist/maxLen`, `1` when both are empty. -/
def similarity (s1 s2 : String) : Rat :=
  let maxLen := max s1.length s2.length
  if maxLen = 0 then 1
  else 1 - (levenshteinDistance s1 s2 : Rat) / (maxLen : Rat)

/-! ## Fuzzy grouping (`groupSimilarNames`) -/

/-- One element of `nameData`: `{original, normalized, count}`. -/
structure NameEntry where
  original : String
  normalized : String
  count : Nat
deriving DecidableEq, Repr

/-- `names.map(name => ({original, normalized, count: name.count || 1}))`
for inputs that are `{name, count}` records. -/
def mkNameData (names : List (String × Nat)) : List NameEntry :=
  names.map fun p =>
    { original := p.1, normalized := normalizeName p.1
      count := if p.2 = 0 then 1 else p.2 }

/-- Does `otherEntry` join the group anchored at `seed`: similarity of the
normalized forms at least `t`, or one normalized form is a substring of the
other with the shorter at least 4 characters long. -/
def matchesSeed (t : Rat) (seed e : NameEntry) : Bool :=
  if t ≤ similarity seed.normalized e.normalized then true
  else
    let lowerA := jsLower seed.normalized
    let lowerB := jsLower e.normalized
    if jsIncludes lowerA lowerB || jsIncludes lowerB lowerA then
      let shorter := if lowerA.length < lowerB.length then lowerA else lowerB
      decide (4 ≤ shorter.length)
    else false

/-- The greedy seed-scan: the first unprocessed entry anchors a group, all
later unprocessed entries matching it join, and the scan recurses on the
rest.  (Equivalent to the `processed`-set loop in the source: entries before
the current seed are always already processed.) -/
def groupLoop (t : Rat) : List NameEntry → List (List NameEntry)
  | [] => []
  | seed :: rest =>
    (seed :: rest.filter (fun e => matchesSeed t seed e)) ::
      groupLoop t (rest.filter (fun e => !matchesSeed t seed e))
termination_by l => l.length
decreasing_by
  simp only [List.length_cons]
  exact Nat.lt_succ_of_le (List.length_filter_le _ _)

/-- `nameCounts` of `findCanonicalName`: occurrence totals per raw string. -/
def countFold (g : List NameEntry) : List (String × Nat) :=
  g.foldl (fun m e => upsert m e.original (· + e.count) 0) []

/-- The sort relation of `findCanonicalName`: higher count first, ties by
longer normalized form first. -/
def canonSortLe (a b : String × Nat) : Bool :=
  b.2 < a.2 || (b.2 == a.2 && (normalizeName b.1).length ≤ (normalizeName a.1).length)

/-- `findCanonicalName(nameGroup)`: the normalized form of the most common raw
string (ties to the longest normalized form). -/
def findCanonicalName (g : List NameEntry) : String :=
  match (countFold g).mergeSort canonSortLe with
  | [] => ""
  | x :: _ => normalizeName x.1

/-- One output group of `groupSimilarNames`. -/
structure NameGroup where
  canonical : String
  variants : List String
  totalCount : Nat
deriving DecidableEq, Repr

/-- `groupSimilarNames(names, threshold)`: sort by count descending (stable),
then run the greedy seed scan and elect a canonical per group. -/
def groupSimilarNames (names : List (String × Nat)) (t : Rat := 3 / 4) : List NameGroup :=
  let nameData := mkNameData names
  let sorted := nameData.mergeSort (fun a b => b.count ≤ a.count)
  (groupLoop t sorted).map fun g =>
    { canonical := findCanonicalName g
      variants := g.map (·.original)
      totalCount := (g.map (·.count)).sum }

/-! ## Rows and the variant-to-canonical mapping -/

/-- A sheet row: association list from header to cell string. -/
abbrev Row := List (String × String)

/-- `String(row[k] || '')`: a missing key or empty cell reads as `''`. -/
def getCell (row : Row) (k : String) : String :=
  ((row.find? (fun p => p.1 == k)).map (·.2)).getD ""

/-- The result record of `createNameMapping`. -/
structure NameMapping where
  mapping : List (String × String)
  reverseMapping : List (String × List String)
  groups : List NameGroup
  totalOriginal : Nat
  totalNormalized : Nat
deriving Repr

/-- `createNameMapping(data, facultyColumn)`: count trimmed non-empty names,
group them, then flatten variant→canonical and canonical→variants maps. -/
def createNameMapping (data : List Row) (facultyColumn : String) : NameMapping :=
  let nameCounts := data.foldl
    (fun m row =>
      let name := jsTrimStr (getCell row facultyColumn)
      if name ≠ "" then upsert m name (· + 1) 0 else m)
    []
  let groups := groupSimilarNames nameCounts
  let mapping := groups.foldl
    (fun m g => g.variants.foldl (fun m' v => setAssoc m' v g.canonical) m) []
  let reverseMapping := groups.foldl (fun m g => setAssoc m g.canonical g.variants) []
  { mapping := mapping
    reverseMapping := reverseMapping
    groups := groups
    totalOriginal := nameCounts.length
    totalNormalized := groups.length }

/-- `applyNameMapping(data, facultyColumn, mapping)`: rewrite the faculty cell
to its canonical name and record the original under `_originalFacultyName`;
rows with an empty or unmapped (or falsy-mapped) name pass through unchanged. -/
def applyNameMapping (data : List Row) (facultyColumn : String)
    (mapping : List (String × String)) : List Row :=
  data.map fun row =>
    let originalName := jsTrimStr (getCell row facultyColumn)
    if originalName ≠ "" ∧ ((lookupA mapping originalName).getD "") ≠ "" then
      setAssoc (setAssoc row facultyColumn ((lookupA mapping originalName).getD ""))
        "_originalFacultyName" originalName
    else row

/-! ## Likert mapping and JavaScript numeric parsing (`analytics.js`) -/

/-- The `LIKERT_MAPPING` table. -/
def LIKERT_MAPPING : List (String × Nat) :=
  [("strongly agree", 5), ("agree", 4), ("neutral", 3), ("disagree", 2),
   ("strongly disagree", 1), ("excellent", 5), ("very good", 4), ("good", 3),
   ("satisfactory", 2), ("poor", 1), ("5", 5), ("4", 4), ("3", 3), ("2", 2), ("1", 1)]

/-- Result of JavaScript `parseFloat`. -/
inductive JsNum where
  | nan : JsNum
  | inf (neg : Bool) : JsNum
  | val (q : Rat) : JsNum
deriving DecidableEq, Repr

/-- Value of a digit string. -/
def digitsVal (l : List Char) : Nat :=
  l.foldl (fun a c => 10 * a + (c.toNat - 48)) 0

/-- JavaScript `parseFloat`: longest valid decimal-literal prefix, `NaN` when
none; the double rounding step is omitted (exact rationals), which agrees with
the source on the short decimal literals occurring in survey cells. -/
def jsParseFloat (s : String) : JsNum :=
  let l := s.toList.dropWhile jsIsWs
  let sgn : Int := match l with
    | '-' :: _ => -1
    | _ => 1
  let l := match l with
    | '+' :: r => r
    | '-' :: r => r
    | _ => l
  if "Infinity".toList <+: l then .inf (sgn < 0)
  else
    let ip := l.takeWhile Char.isDigit
    let l1 := l.dropWhile Char.isDigit
    let fp := match l1 with
      | '.' :: r => r.takeWhile Char.isDigit
      | _ => []
    let l2 := match l1 with
      | '.' :: r => r.dropWhile Char.isDigit
      | _ => l1
    if ip = [] ∧ fp = [] then .nan
    else
      let mant : Rat := (digitsVal ip : Rat) + (digitsVal fp : Rat) / ((10 : Rat) ^ fp.length)
      let ex : Int := match l2 with
        | 'e' :: r | 'E' :: r =>
          let esgn : Int := match r with
            | '-' :: _ => -1
            | _ => 1
          let r' := match r with
            | '+' :: rr => rr
            | '-' :: rr => rr
            | _ => r
          let ed := r'.takeWhile Char.isDigit
          if ed = [] then 0 else esgn * (digitsVal ed : Int)
        | _ => 0
      .val ((sgn : Rat) * mant * (10 : Rat) ^ ex)

/-- `!isNaN(num) && num >= 1 && num <= 5` after `parseFloat`. -/
def isNumericRating (v : String) : Bool :=
  match jsParseFloat v with
  | .val q => decide (1 ≤ q) && decide (q ≤ 5)
  | _ => false

/-- `Math.round` for finite values: round half towards positive infinity. -/
def jsRound (q : Rat) : Int := (q + 1 / 2).floor

/-- `Math.round(x * 100) / 100` — two-decimal rounding. -/
def round2 (q : Rat) : Rat := ((jsRound (q * 100) : Rat)) / 100

/-! ## Question-column identification (`identifyQuestionColumns`) -/

/-- `metadataPatterns` of `identifyQuestionColumns`. -/
def metadataPatterns : List String :=
  ["timestamp", "email", "school name", "department", "semester",
   "class-section", "name of faculty", "course name", "special remark"]

/-- JavaScript `a.startsWith(b)`. -/
def jsStartsWith (a b : String) : Bool := decide (b.toList <+: a.toList)

/-- The metadata test: exact or starts-with match against a pattern, or the
header contains both "remark" and "special". -/
def isMetadataHeader (headerLower : String) : Bool :=
  metadataPatterns.any fun pattern =>
    headerLower == pattern || jsStartsWith headerLower pattern ||
    (jsIncludes headerLower "remark" && jsIncludes headerLower "special")

/-- The sample scan: break with `true` on the first Likert value, otherwise
accumulate whether some value was a numeric 1–5 rating. -/
def scanVals : List String → Bool → Bool
  | [], hasNum => hasNum
  | v :: rest, hasNum =>
    if jsAnyKey LIKERT_MAPPING v then true
    else scanVals rest (hasNum || isNumericRating v)

/-- `identifyQuestionColumns(headers, data)`: keep headers of trimmed length at
least 15 that are not metadata and whose first `min(100, rows)` sample values
contain a Likert response or a numeric 1–5 rating. -/
def identifyQuestionColumns (headers : List String) (data : List Row) : List String :=
  let sampleSize := min 100 data.length
  headers.filter fun header =>
    let headerLower := jsTrimStr (jsLower header)
    if (jsTrimStr header).length < 15 then false
    else if isMetadataHeader headerLower then false
    else
      scanVals ((data.take sampleSize).map fun row => jsTrimStr (jsLower (getCell row header)))
        false

/-! ## Filtering (`applyFilters`) -/

/-- Faculty filter expansion: each selected name goes to its canonical (falsy
mapped values fall back to the selection itself), then to the canonical's full
variant list. -/
def expandFacultyValues (m : NameMapping) (values : List String) : List String :=
  values.flatMap fun v =>
    let canonicalName :=
      match lookupA m.mapping v with
      | some c => if c = "" then v else c
      | none => v
    match lookupA m.reverseMapping canonicalName with
    | some l => l
    | none => [v]

/-- One step of the `filterEntries` construction: the faculty category's
selection is expanded through the name mapping, other categories pass through. -/
def expandEntry (nameMapping : Option NameMapping) (facultyColumn : Option String)
    (p : String × List String) : String × List String :=
  match facultyColumn, nameMapping with
  | some fc, some m => if p.1 = fc then (p.1, expandFacultyValues m p.2) else (p.1, p.2)
  | _, _ => (p.1, p.2)

/-- `applyFilters(data, filters, nameMapping, facultyColumn)`: drop empty
selections, expand the faculty category through the name mapping, and keep the
rows whose trimmed cell value lies in every active category's value set. -/
def applyFilters (data : List Row) (filters : List (String × List String))
    (nameMapping : Option NameMapping) (facultyColumn : Option String) : List Row :=
  if filters.isEmpty then data
  else
    let filterEntries :=
      (filters.filter fun p => !p.2.isEmpty).map (expandEntry nameMapping facultyColumn)
    if filterEntries.isEmpty then data
    else
      data.filter fun row =>
        filterEntries.all fun e => e.2.contains (jsTrimStr (getCell row e.1))

/-- The core row predicate of `applyFilters` for one entry list. -/
def passesEntries (entries : List (String × List String)) (row : Row) : Bool :=
  entries.all fun e => e.2.contains (jsTrimStr (getCell row e.1))

/-! ## Scoring (`calculateQuestionScores` and the per-row mean) -/

/-- The Likert/numeric score of one cell (cells are strings in this model, so
the `typeof rawValue === 'number'` branch of the source is not taken; its
numeric values are covered by the numeral entries of the Likert table). -/
def cellScore (row : Row) (q : String) : Option Nat :=
  match lookupA LIKERT_MAPPING (jsTrimStr (jsLower (getCell row q))) with
  | some n => if 1 ≤ n ∧ n ≤ 5 then some n else none
  | none => none

/-- The 5-bucket answer distribution. -/
structure Distribution where
  stronglyAgree : Nat
  agree : Nat
  neutral : Nat
  disagree : Nat
  stronglyDisagree : Nat
deriving DecidableEq, Repr

/-- One entry of `questionScores`. -/
structure QuestionScore where
  question : String
  score : Rat
  distribution : Distribution
  validResponses : Nat
deriving DecidableEq, Repr

/-- `calculateQuestionScores(data, questionColumns)`. -/
def calculateQuestionScores (data : List Row) (questionColumns : List String) :
    List QuestionScore :=
  questionColumns.map fun question =>
    let ss := data.filterMap fun row => cellScore row question
    let avgScore : Rat := if ss.length > 0 then (ss.sum : Rat) / (ss.length : Rat) else 0
    { question := question
      score := round2 avgScore
      distribution :=
        { stronglyAgree := ss.count 5, agree := ss.count 4, neutral := ss.count 3
          disagree := ss.count 2, stronglyDisagree := ss.count 1 }
      validResponses := ss.length }

/-- The per-row mean over the row's valid question values (the loop inlined in
each aggregation function of the source); `none` when no value is valid. -/
def rowMeanScore (row : Row) (questionColumns : List String) : Option Rat :=
  let ss := questionColumns.filterMap fun q => cellScore row q
  if ss.length > 0 then some ((ss.sum : Rat) / (ss.length : Rat)) else none

/-! ## Group rollups (`calculateGroupScores` and friends) -/

/-- One entry of a generic group rollup. -/
structure GroupScore where
  name : String
  score : Rat
  count : Nat
deriving DecidableEq, Repr

/-- Accumulate the per-row means under a key (the `groupedData` pattern: the
entry is created for every row with a non-empty key, the score is pushed only
when the row has a valid question value). -/
def accumGroup (data : List Row) (keyOf : Row → String) (questionColumns : List String) :
    List (String × List Rat) :=
  data.foldl
    (fun m row =>
      let k := keyOf row
      if k = "" then m
      else
        upsert m k
          (fun l =>
            match rowMeanScore row questionColumns with
            | some rm => l ++ [rm]
            | none => l)
          [])
    []

/-- `calculateGroupScores(data, headers, groupKeyword, questionColumns)`:
per-key mean of the row means, sorted by score descending, top 10.
(A key all of whose rows have no valid value gets `NaN` in the source; the
model reads `0/0 = 0` there — no claim below touches such keys.) -/
def calculateGroupScores (data : List Row) (headers : List String) (groupKeyword : String)
    (questionColumns : List String) : List GroupScore :=
  match headers.find? fun h => jsIncludes (jsLower h) groupKeyword with
  | none => []
  | some groupColumn =>
    if questionColumns.isEmpty then []
    else
      ((accumGroup data (fun row => jsTrimStr (getCell row groupColumn)) questionColumns).map
        fun p =>
          { name := p.1
            score := round2 ((p.2.sum) / (p.2.length : Rat))
            count := p.2.length }).mergeSort (fun a b => b.score ≤ a.score)
        |>.take 10

/-- `RATING_THRESHOLDS` + `getRatingLabel`. -/
def getRatingLabel (score : Rat) : String :=
  if 4.5 ≤ score then "Excellent"
  else if 4 ≤ score then "Very Good"
  else if 3.5 ≤ score then "Good"
  else if 3 ≤ score then "Satisfactory"
  else "Needs Improvement"

/-- `Set.prototype.add` (insertion order, deduplicated). -/
def addUniq (l : List String) (v : String) : List String :=
  if l.contains v then l else l ++ [v]

/-- Accumulator of `facultyData`. -/
structure FacAcc where
  scores : List Rat
  courses : List String
  sections : List String
deriving Repr

/-- One entry of `facultyScores`. -/
structure FacultyScore where
  name : String
  score : Rat
  feedbackCount : Nat
  coursesHandled : List String
  sectionsHandled : List String
  rating : String
  rank : Nat
deriving DecidableEq, Repr

/-- `calculateFacultyScores(data, headers, questionColumns)`. -/
def calculateFacultyScores (data : List Row) (headers : List String)
    (questionColumns : List String) : List FacultyScore :=
  let facultyColumn? := headers.find? fun h =>
    jsIncludes (jsLower h) "faculty" || jsIncludes (jsLower h) "teacher"
  let courseColumn? := headers.find? fun h =>
    jsIncludes (jsLower h) "course" || jsIncludes (jsLower h) "subject"
  let sectionColumn? := headers.find? fun h =>
    jsIncludes (jsLower h) "section" || jsIncludes (jsLower h) "class"
  match facultyColumn? with
  | none => []
  | some facultyColumn =>
    if questionColumns.isEmpty then []
    else
      let facultyData : List (String × FacAcc) := data.foldl
        (fun m row =>
          let facultyName := jsTrimStr (getCell row facultyColumn)
          if facultyName = "" then m
          else
            upsert m facultyName
              (fun (acc : FacAcc) =>
                let acc := match courseColumn? with
                  | some cc =>
                    if getCell row cc ≠ "" then
                      { acc with courses := addUniq acc.courses (jsTrimStr (getCell row cc)) }
                    else acc
                  | none => acc
                let acc := match sectionColumn? with
                  | some sc =>
                    if getCell row sc ≠ "" then
                      { acc with sections := addUniq acc.sections (jsTrimStr (getCell row sc)) }
                    else acc
                  | none => acc
                match rowMeanScore row questionColumns with
                | some rm => { acc with scores := acc.scores ++ [rm] }
                | none => acc)
              { scores := [], courses := [], sections := [] })
        []
      let facultyScores := (facultyData.map fun p =>
        let mean : Rat := (p.2.scores.sum) / (p.2.scores.length : Rat)
        { name := p.1
          score := round2 mean
          feedbackCount := p.2.scores.length
          coursesHandled := p.2.courses
          sectionsHandled := p.2.sections
          rating := getRatingLabel mean
          rank := 0 : FacultyScore }).mergeSort (fun a b => b.score ≤ a.score)
      facultyScores.enum.map fun p => { p.2 with rank := p.1 + 1 }

/-- One entry of `sectionWise`. -/
structure SectionScore where
  sectionName : String
  semester : String
  course : String
  averageScore : Rat
  feedbackCount : Nat
deriving DecidableEq, Repr

/-- `calculateSectionScores(data, headers, questionColumns)` — keyed by
`section|semester|course`, sorted by average score descending (no top-10 cut). -/
def calculateSectionScores (data : List Row) (headers : List String)
    (questionColumns : List String) : List SectionScore :=
  let sectionColumn? := headers.find? fun h =>
    jsIncludes (jsLower h) "section" || jsIncludes (jsLower h) "class"
  let semesterColumn? := headers.find? fun h => jsIncludes (jsLower h) "semester"
  let courseColumn? := headers.find? fun h =>
    jsIncludes (jsLower h) "course" || jsIncludes (jsLower h) "subject"
  match sectionColumn? with
  | none => []
  | some sectionColumn =>
    if questionColumns.isEmpty then []
    else
      let sectionData := data.foldl
        (fun m row =>
          let sec := jsTrimStr (getCell row sectionColumn)
          let sem := match semesterColumn? with
            | some c => jsTrimStr (getCell row c)
            | none => ""
          let crs := match courseColumn? with
            | some c => jsTrimStr (getCell row c)
            | none => ""
          if sec = "" then m
          else
            upsert m (sec ++ "|" ++ sem ++ "|" ++ crs)
              (fun acc =>
                match rowMeanScore row questionColumns with
                | some rm => (acc.1, acc.2.1, acc.2.2.1, acc.2.2.2 ++ [rm])
                | none => acc)
              (sec, sem, crs, []))
        []
      ((sectionData.map fun p =>
        { sectionName := p.2.1
          semester := p.2.2.1
          course := p.2.2.2.1
          averageScore := round2 ((p.2.2.2.2.sum) / (p.2.2.2.2.length : Rat))
          feedbackCount := p.2.2.2.2.length : SectionScore }).mergeSort
        fun a b => b.averageScore ≤ a.averageScore)

/-- One entry of `courseWise`. -/
structure CourseScore where
  courseName : String
  averageScore : Rat
  feedbackCount : Nat
  sections : List String
deriving DecidableEq, Repr

/-- `calculateCourseScores(data, headers, questionColumns)`. -/
def calculateCourseScores (data : List Row) (headers : List String)
    (questionColumns : List String) : List CourseScore :=
  let courseColumn? := headers.find? fun h =>
    jsIncludes (jsLower h) "course" || jsIncludes (jsLower h) "subject"
  let sectionColumn? := headers.find? fun h =>
    jsIncludes (jsLower h) "section" || jsIncludes (jsLower h) "class"
  match courseColumn? with
  | none => []
  | some courseColumn =>
    if questionColumns.isEmpty then []
    else
      let courseData := data.foldl
        (fun m row =>
          let crs := jsTrimStr (getCell row courseColumn)
          if crs = "" then m
          else
            upsert m crs
              (fun acc =>
                let acc := match sectionColumn? with
                  | some sc =>
                    if getCell row sc ≠ "" then
                      (acc.1, addUniq acc.2 (jsTrimStr (getCell row sc)))
                    else acc
                  | none => acc
                match rowMeanScore row questionColumns with
                | some rm => (acc.1 ++ [rm], acc.2)
                | none => acc)
              ([], []))
        []
      ((courseData.map fun p =>
        { courseName := p.1
          averageScore := round2 ((p.2.1.sum) / (p.2.1.length : Rat))
          feedbackCount := p.2.1.length
          sections := p.2.2 : CourseScore }).mergeSort
        fun a b => b.averageScore ≤ a.averageScore)

/-- One entry of `semesterWise`. -/
structure SemesterScore where
  semester : String
  score : Rat
  count : Nat
deriving DecidableEq, Repr

/-- `calculateSemesterScores(data, headers, questionColumns)` — sorted by
semester label ascending. -/
def calculateSemesterScores (data : List Row) (headers : List String)
    (questionColumns : List String) : List SemesterScore :=
  match headers.find? fun h => jsIncludes (jsLower h) "semester" with
  | none => []
  | some semesterColumn =>
    if questionColumns.isEmpty then []
    else
      ((accumGroup data (fun row => jsTrimStr (getCell row semesterColumn)) questionColumns).map
        fun p =>
          { semester := p.1
            score := round2 ((p.2.sum) / (p.2.length : Rat))
            count := p.2.length : SemesterScore }).mergeSort
        fun a b => a.semester ≤ b.semester

/-! ## Time trends (`calculateTimeTrends`, `getWeekKey`) -/

/-- A calendar date as delivered by a successful `new Date(timestamp)` parse.
The `Date` constructor itself is an external JavaScript built-in; it is
abstracted as a `parseDate` function argument below (`none` = invalid date). -/
structure SimpleDate where
  year : Int
  month : Nat
  day : Nat
deriving DecidableEq, Repr

/-- `toLocaleString('default', { month: 'short' })` month abbreviations
(English locale), months numbered 1–12. -/
def monthShort (m : Nat) : String :=
  ["Jan", "Feb", "Mar", "Apr", "May", "Jun",
   "Jul", "Aug", "Sep", "Oct", "Nov", "Dec"].getD (m - 1) ""

/-- `getWeekKey(date)`: month abbreviation plus week-of-month
(`Math.ceil(day / 7)`).  The source computes the year but does not put it in
the key, so dates of different years share buckets. -/
def getWeekKey (d : SimpleDate) : String :=
  monthShort d.month ++ " W" ++ toString ((d.day + 6) / 7)

/-- One point of `timeTrends`. -/
structure TrendPoint where
  label : String
  value : Rat
deriving DecidableEq, Repr

/-- One row's contribution to `weeklyData`: rows with a truthy, parseable
timestamp create/extend their week bucket, pushing the row mean when the row
has valid question values. -/
def weeklyStep (parseDate : String → Option SimpleDate) (timestampColumn : String)
    (questionColumns : List String) (m : List (String × List Rat)) (row : Row) :
    List (String × List Rat) :=
  let timestamp := getCell row timestampColumn
  if timestamp = "" then m
  else
    match parseDate timestamp with
    | none => m
    | some d =>
      upsert m (getWeekKey d)
        (fun l =>
          match rowMeanScore row questionColumns with
          | some rm => l ++ [rm]
          | none => l)
        []

/-- `calculateTimeTrends(data, headers, questionColumns)`: bucket per-row means
by `getWeekKey`, sort the buckets by their label (`localeCompare`, which on
these `"Mon W<k>"` labels coincides with code-point order), and keep the last
10 of that order. -/
def calculateTimeTrends (parseDate : String → Option SimpleDate) (data : List Row)
    (headers : List String) (questionColumns : List String) : List TrendPoint :=
  let timestampColumn? := headers.find? fun h =>
    jsIncludes (jsLower h) "timestamp" || jsIncludes (jsLower h) "date" ||
    jsIncludes (jsLower h) "time"
  match timestampColumn? with
  | none => []
  | some timestampColumn =>
    if questionColumns.isEmpty then []
    else
      let weeklyData : List (String × List Rat) :=
        data.foldl (weeklyStep parseDate timestampColumn questionColumns) []
      let sorted := weeklyData.mergeSort fun a b => a.1 ≤ b.1
      (sorted.drop (sorted.length - 10)).map fun p =>
        { label := p.1, value := round2 ((p.2.sum) / (p.2.length : Rat)) }

/-! ## `calculateAnalytics` -/

/-- The `overallStats` sub-record. -/
structure OverallStats where
  totalFaculty : Nat
  totalCourses : Nat
  totalSections : Nat
  averageByParameter : List QuestionScore
deriving DecidableEq, Repr

/-- The full analytics record. -/
structure Analytics where
  totalResponses : Nat
  averageRating : Rat
  questionScores : List QuestionScore
  departmentWise : List GroupScore
  timeTrends : List TrendPoint
  facultyScores : List FacultyScore
  sectionWise : List SectionScore
  courseWise : List CourseScore
  semesterWise : List SemesterScore
  overallStats : OverallStats
  topPerformers : List FacultyScore
  needsImprovement : List FacultyScore
deriving Repr

/-- The distinct trimmed values of a (found) column over truthy cells
(the `uniqueFaculty`/`uniqueCourses`/`uniqueSections` sets). -/
def uniqueVals (data : List Row) (col? : Option String) : List String :=
  match col? with
  | none => []
  | some c =>
    data.foldl
      (fun l row => if getCell row c ≠ "" then addUniq l (jsTrimStr (getCell row c)) else l)
      []

/-- `calculateAnalytics(data, headers, questionColumns)`: the zero-valued
record for an empty row set, otherwise all rollups. -/
def calculateAnalytics (parseDate : String → Option SimpleDate) (data : List Row)
    (headers : List String) (questionColumns : List String) : Analytics :=
  if data.length = 0 then
    { totalResponses := 0
      averageRating := 0
      questionScores := []
      departmentWise := []
      timeTrends := []
      facultyScores := []
      sectionWise := []
      courseWise := []
      semesterWise := []
      overallStats :=
        { totalFaculty := 0, totalCourses := 0, totalSections := 0, averageByParameter := [] }
      topPerformers := []
      needsImprovement := [] }
  else
    let questionScores := calculateQuestionScores data questionColumns
    let averageRating : Rat :=
      if questionScores.length > 0 then
        ((questionScores.map (·.score)).sum) / (questionScores.length : Rat)
      else 0
    let facultyScores := calculateFacultyScores data headers questionColumns
    let facultyCol := headers.find? fun h =>
      jsIncludes (jsLower h) "faculty" || jsIncludes (jsLower h) "teacher"
    let courseCol := headers.find? fun h =>
      jsIncludes (jsLower h) "course" || jsIncludes (jsLower h) "subject"
    let sectionCol := headers.find? fun h =>
      jsIncludes (jsLower h) "section" || jsIncludes (jsLower h) "class"
    let sortedFaculty := facultyScores.mergeSort fun a b => b.score ≤ a.score
    { totalResponses := data.length
      averageRating := round2 averageRating
      questionScores := questionScores
      departmentWise := calculateGroupScores data headers "department" questionColumns
      timeTrends := calculateTimeTrends parseDate data headers questionColumns
      facultyScores := facultyScores
      sectionWise := calculateSectionScores data headers questionColumns
      courseWise := calculateCourseScores data headers questionColumns
      semesterWise := calculateSemesterScores data headers questionColumns
      overallStats :=
        { totalFaculty := (uniqueVals data facultyCol).length
          totalCourses := (uniqueVals data courseCol).length
          totalSections := (uniqueVals data sectionCol).length
          averageByParameter := questionScores }
      topPerformers := sortedFaculty.take 5
      needsImprovement := (sortedFaculty.filter fun f => f.score < 3).take 5 }

/-! ## Manual merge overlay (`handleConfirmMerge` of the client component) -/

/-- One category's overlay: canonical name → explicit variant list. -/
abbrev CategoryMerges := List (String × List String)

/-- The persisted overlay: category → `CategoryMerges`. -/
abbrev MergedNames := List (String × CategoryMerges)

/-- The removal pass of `handleConfirmMerge`: drop the selected variants from
every canonical group, and delete groups left empty. -/
def mergeCleanup (m : CategoryMerges) (selected : List String) : CategoryMerges :=
  (m.map fun p => (p.1, p.2.filter fun v => !selected.contains v)).filter
    fun p => !p.2.isEmpty

/-- `handleConfirmMerge`: reject when the canonical name is empty, fewer than
2 variants are selected, or no active sheet id is present; otherwise clean the
selected variants out of the category's existing groups and insert
`canonicalName -> selectedVariants`. -/
def handleConfirmMerge (mergedNames : MergedNames) (mergeCategory : String)
    (mergeCanonicalName : String) (mergeSelectedNames : List String)
    (activeSheetId : Option String) : MergedNames :=
  if mergeCanonicalName = "" || mergeSelectedNames.length < 2 ||
      (activeSheetId.getD "") = "" then
    mergedNames
  else
    let categoryMerges := (lookupA mergedNames mergeCategory).getD []
    let categoryMerges := mergeCleanup categoryMerges mergeSelectedNames
    let categoryMerges := setAssoc categoryMerges mergeCanonicalName mergeSelectedNames
    setAssoc mergedNames mergeCategory categoryMerges

/-! ## Specification-side reformulations and concrete test fixtures -/

/-- The claim's characterization of a question column: trimmed header length at
least 15, not metadata, and some sample value (first `min(100, rows)` rows) is
a Likert response or a numeric rating in `[1, 5]`. -/
def isQuestionHeaderSpec (data : List Row) (header : String) : Bool :=
  decide (15 ≤ (jsTrimStr header).length) &&
  !isMetadataHeader (jsTrimStr (jsLower header)) &&
  (data.take (min 100 data.length)).any fun row =>
    let v := jsTrimStr (jsLower (getCell row header))
    jsAnyKey LIKERT_MAPPING v || isNumericRating v

/-- The per-row means that fall into the time bucket `label`, in row order
(specification-side description of one bucket of `calculateTimeTrends`). -/
def bucketRowMeans (parseDate : String → Option SimpleDate) (data : List Row)
    (timestampColumn : String) (questionColumns : List String) (label : String) : List Rat :=
  data.filterMap fun row =>
    let timestamp := getCell row timestampColumn
    if timestamp = "" then none
    else
      match parseDate timestamp with
      | none => none
      | some d => if getWeekKey d = label then rowMeanScore row questionColumns else none

/-- Whether some row of the data feeds the time bucket `label`. -/
def bucketInhabited (parseDate : String → Option SimpleDate) (data : List Row)
    (timestampColumn : String) (label : String) : Bool :=
  data.any fun row =>
    let timestamp := getCell row timestampColumn
    timestamp ≠ "" &&
      match parseDate timestamp with
      | none => false
      | some d => getWeekKey d == label

/-- Total occurrence count of one raw string inside a name group
(specification-side description of `nameCounts` in `findCanonicalName`). -/
def totalRawCount (g : List NameEntry) (raw : String) : Nat :=
  ((g.filter fun e => e.original = raw).map (·.count)).sum

/-- The example question header of the specification. -/
def exHeader : String := "The faculty explains concepts clearly and confidently"

/-- The example sample rows: Strongly Agree, Agree, Agree, Neutral. -/
def exData : List Row :=
  [[(exHeader, "Strongly Agree")], [(exHeader, "Agree")],
   [(exHeader, "Agree")], [(exHeader, "Neutral")]]

/-- A concrete `new Date` parse table for the time-trend counterexample. -/
def c4parse (s : String) : Option SimpleDate :=
  lookupA [("2024-01-03", ⟨2024, 1, 3⟩), ("2024-04-03", ⟨2024, 4, 3⟩)] s

/-- Two rows, one answered in January and one in April of the same year. -/
def c4data : List Row :=
  [[("Timestamp", "2024-01-03"), ("Rates the overall teaching quality", "5")],
   [("Timestamp", "2024-04-03"), ("Rates the overall teaching quality", "4")]]

/-- Headers for the time-trend fixtures. -/
def c4headers : List String := ["Timestamp", "Rates the overall teaching quality"]

/-- Question columns for the time-trend fixtures. -/
def c4qcols : List String := ["Rates the overall teaching quality"]

/-- Two rows whose faculty names both normalize to the empty string. -/
def dotData : List Row := [[("Faculty", ".")], [("Faculty", "..")]]

/-- Two rows with faculty spellings that group together at the default
threshold with a non-empty canonical. -/
def raoData : List Row := [[("Faculty", "Dr. Rao")], [("Faculty", "Rao Sir")]]

/-! ## Character-level lemmas -/

theorem charOfNat_toNat (n : Nat) (h : n < 55296) : (Char.ofNat n).toNat = n := by
  rw [Char.ofNat, dif_pos (Or.inl h)]
  rfl

theorem char_toNat_injective {c d : Char} (h : c.toNat = d.toNat) : c = d :=
  Char.ext (UInt32.ext h)

theorem toUpper_toNat (c : Char) :
    c.toUpper.toNat = if c.toNat ≥ 97 ∧ c.toNat ≤ 122 then c.toNat - 32 else c.toNat := by
  simp only [Char.toUpper]
  by_cases h : c.toNat ≥ 97 ∧ c.toNat ≤ 122
  · rw [if_pos h, if_pos h]
    exact charOfNat_toNat _ (by omega)
  · rw [if_neg h, if_neg h]

theorem toLower_toNat (c : Char) :
    c.toLower.toNat = if c.toNat ≥ 65 ∧ c.toNat ≤ 90 then c.toNat + 32 else c.toNat := by
  simp only [Char.toLower]
  by_cases h : c.toNat ≥ 65 ∧ c.toNat ≤ 90
  · rw [if_pos h, if_pos h]
    exact charOfNat_toNat _ (by omega)
  · rw [if_neg h, if_neg h]

theorem toLower_toLower (c : Char) : c.toLower.toLower = c.toLower := by
  apply char_toNat_injective
  rw [toLower_toNat, toLower_toNat c]
  split_ifs <;> omega

theorem toLower_toUpper (c : Char) : c.toUpper.toLower = c.toLower := by
  apply char_toNat_injective
  rw [toLower_toNat, toUpper_toNat, toLower_toNat]
  split_ifs <;> omega

theorem dot_toNat : ('.').toNat = 46 := rfl

theorem char_ne_iff_toNat {c d : Char} : c ≠ d ↔ c.toNat ≠ d.toNat := by
  constructor
  · intro h hn
    exact h (char_toNat_injective hn)
  · intro h hc
    exact h (by rw [hc])

theorem toUpper_ne_dot {c : Char} (h : c ≠ '.') : c.toUpper ≠ '.' := by
  rw [char_ne_iff_toNat] at h ⊢
  rw [toUpper_toNat, dot_toNat] at *
  split <;> omega

theorem toLower_ne_dot {c : Char} (h : c ≠ '.') : c.toLower ≠ '.' := by
  rw [char_ne_iff_toNat] at h ⊢
  rw [toLower_toNat, dot_toNat] at *
  split <;> omega

theorem jsIsWs_toNat_cond (c : Char) :
    jsIsWs c =
      (decide (c.toNat = 32) || decide (c.toNat = 9) || decide (c.toNat = 10) ||
       decide (c.toNat = 11) || decide (c.toNat = 12) || decide (c.toNat = 13) ||
       decide (c.toNat = 0xA0) || decide (c.toNat = 0x1680) ||
       (decide (0x2000 ≤ c.toNat) && decide (c.toNat ≤ 0x200A)) ||
       decide (c.toNat = 0x2028) || decide (c.toNat = 0x2029) ||
       decide (c.toNat = 0x202F) || decide (c.toNat = 0x205F) ||
       decide (c.toNat = 0x3000) || decide (c.toNat = 0xFEFF)) := rfl

theorem jsIsWs_toUpper (c : Char) : jsIsWs c.toUpper = jsIsWs c := by
  rw [jsIsWs_toNat_cond, jsIsWs_toNat_cond, toUpper_toNat]
  split_ifs with h
  · rw [Bool.eq_iff_iff]
    simp only [Bool.or_eq_true, decide_eq_true_eq, Bool.and_eq_true]
    constructor <;> intro hc <;> omega
  · rfl

theorem jsIsWs_toLower (c : Char) : jsIsWs c.toLower = jsIsWs c := by
  rw [jsIsWs_toNat_cond, jsIsWs_toNat_cond, toLower_toNat]
  split_ifs with h
  · rw [Bool.eq_iff_iff]
    simp only [Bool.or_eq_true, decide_eq_true_eq, Bool.and_eq_true]
    constructor <;> intro hc <;> omega
  · rfl

/-! ## Association-list lemmas -/

theorem setKey_pred_eq {β : Type _} (k : String) (v : β) (k' : String) :
    ((fun p : String × β => p.1 == k') ∘ fun p => if p.1 == k then (p.1, v) else p) =
      fun p : String × β => p.1 == k' := by
  funext p
  simp only [Function.comp_apply]
  congr 1
  split
  · rfl
  · rfl

theorem lookupA_setAssoc_ne {β : Type _} (m : List (String × β)) (k : String) (v : β)
    (k' : String) (h : k' ≠ k) : lookupA (setAssoc m k v) k' = lookupA m k' := by
  unfold setAssoc lookupA
  split
  · rw [List.find?_map, setKey_pred_eq]
    cases hf : List.find? (fun p : String × β => p.1 == k') m with
    | none => rfl
    | some q =>
      have hq : q.1 = k' := by simpa using List.find?_some hf
      have hg : (if (q.1 == k) = true then (q.1, v) else q) = q := by
        rw [if_neg]
        simp only [beq_iff_eq, hq]
        exact fun hh => h hh
      simp only [Option.map_map, Option.map_some', Function.comp_apply, hg]
  · rw [List.find?_append]
    have h2 : List.find? (fun p : String × β => p.1 == k') [(k, v)] = none := by
      simp only [List.find?_cons, List.find?_nil]
      rw [show ((k, v).1 == k') = false by
        simp only [beq_eq_false_iff_ne, ne_eq]
        exact fun hh => h hh.symm]
    rw [h2, Option.or_none]

theorem lookupA_setAssoc_self {β : Type _} (m : List (String × β)) (k : String) (v : β) :
    lookupA (setAssoc m k v) k = some v := by
  unfold setAssoc lookupA
  split
  · next hany =>
    rw [List.find?_map, setKey_pred_eq]
    unfold jsAnyKey at hany
    have hsome : (List.find? (fun p : String × β => p.1 == k) m).isSome := by
      rw [List.find?_isSome]
      exact List.any_eq_true.mp hany
    rcases Option.isSome_iff_exists.mp hsome with ⟨q, hq⟩
    rw [hq]
    have hqk : (q.1 == k) = true := by simpa using List.find?_some hq
    have hg : (if (q.1 == k) = true then (q.1, v) else q) = (q.1, v) := if_pos hqk
    simp only [Option.map_some', hg]
  · next hany =>
    unfold jsAnyKey at hany
    rw [List.find?_append]
    have h1 : List.find? (fun p : String × β => p.1 == k) m = none := by
      rw [List.find?_eq_none]
      intro x hx hpx
      exact hany (List.any_eq_true.mpr ⟨x, hx, hpx⟩)
    rw [h1]
    simp [List.find?_cons]

theorem keys_setAssoc {β : Type _} (m : List (String × β)) (k : String) (v : β) :
    (setAssoc m k v).map Prod.fst =
      if jsAnyKey m k then m.map Prod.fst else m.map Prod.fst ++ [k] := by
  unfold setAssoc
  split
  · rw [List.map_map]
    apply List.map_congr_left
    intro p _
    simp only [Function.comp_apply]
    split
    · rfl
    · rfl
  · simp

theorem nodupKeys_setAssoc {β : Type _} (m : List (String × β)) (k : String) (v : β)
    (h : (m.map Prod.fst).Nodup) : ((setAssoc m k v).map Prod.fst).Nodup := by
  rw [keys_setAssoc]
  split
  · exact h
  · next hany =>
    unfold jsAnyKey at hany
    rw [List.nodup_append]
    refine ⟨h, List.nodup_singleton k, ?_⟩
    intro a ha hb
    simp only [List.mem_singleton] at hb
    subst hb
    rcases List.mem_map.mp ha with ⟨p, hp, hpk⟩
    exact hany (List.any_eq_true.mpr ⟨p, hp, by simpa using hpk⟩)

theorem lookupA_mem {β : Type _} {m : List (String × β)} {k : String} {v : β}
    (hnd : (m.map Prod.fst).Nodup) (h : (k, v) ∈ m) : lookupA m k = some v := by
  induction m with
  | nil => simp at h
  | cons p rest ih =>
    simp only [List.map_cons, List.nodup_cons] at hnd
    rcases List.mem_cons.mp h with h | h
    · subst h
      simp [lookupA, List.find?_cons]
    · have hne : p.1 ≠ k := by
        intro hk
        exact hnd.1 (List.mem_map.mpr ⟨(k, v), h, by simp [hk]⟩)
      unfold lookupA at *
      rw [List.find?_cons, show (p.1 == k) = false by simpa using hne]
      exact ih hnd.2 h

theorem mem_of_lookupA {β : Type _} {m : List (String × β)} {k : String} {v : β}
    (h : lookupA m k = some v) : (k, v) ∈ m := by
  unfold lookupA at h
  rcases Option.map_eq_some'.mp h with ⟨p, hp, hv⟩
  have hm := List.mem_of_find?_eq_some hp
  have hk : p.1 = k := by
    have := List.find?_some hp
    simpa using this
  have hpv : p = (k, v) := by
    rcases p with ⟨a, b⟩
    simp only at hk hv
    rw [hk, hv]
  rwa [hpv] at hm

theorem lookupA_none_iff {β : Type _} (m : List (String × β)) (k : String) :
    lookupA m k = none ↔ jsAnyKey m k = false := by
  unfold lookupA jsAnyKey
  rw [Option.map_eq_none', List.find?_eq_none]
  constructor
  · intro h
    rw [← Bool.not_eq_true, List.any_eq_true]
    rintro ⟨x, hx, hpx⟩
    exact h x hx hpx
  · intro h x hx hpx
    rw [← Bool.not_eq_true, List.any_eq_true] at h
    exact h ⟨x, hx, hpx⟩

theorem getCell_eq_lookupA (row : Row) (k : String) :
    getCell row k = ((lookupA row k).getD "") := rfl

theorem getCell_setAssoc_ne (row : Row) (k : String) (v : String) (k' : String)
    (h : k' ≠ k) : getCell (setAssoc row k v) k' = getCell row k' := by
  rw [getCell_eq_lookupA, getCell_eq_lookupA, lookupA_setAssoc_ne row k v k' h]

/-- C8: on a row set of zero rows, `calculateAnalytics` returns the well-formed
zero-valued record — `totalResponses = 0`, `averageRating = 0`, and empty
arrays for question scores, department/faculty/section/course/semester
rollups, time trends, top performers and needs-improvement — instead of
failing. -/
theorem calculateAnalytics_empty (parseDate : String → Option SimpleDate)
    (headers questionColumns : List String) :
    (calculateAnalytics parseDate [] headers questionColumns).totalResponses = 0 ∧
    (calculateAnalytics parseDate [] headers questionColumns).averageRating = 0 ∧
    (calculateAnalytics parseDate [] headers questionColumns).questionScores = [] ∧
    (calculateAnalytics parseDate [] headers questionColumns).departmentWise = [] ∧
    (calculateAnalytics parseDate [] headers questionColumns).facultyScores = [] ∧
    (calculateAnalytics parseDate [] headers questionColumns).sectionWise = [] ∧
    (calculateAnalytics parseDate [] headers questionColumns).courseWise = [] ∧
    (calculateAnalytics parseDate [] headers questionColumns).semesterWise = [] ∧
    (calculateAnalytics parseDate [] headers questionColumns).timeTrends = [] ∧
    (calculateAnalytics parseDate [] headers questionColumns).topPerformers = [] ∧
    (calculateAnalytics parseDate [] headers questionColumns).needsImprovement = [] ∧
    (calculateAnalytics parseDate [] headers questionColumns).overallStats =
      { totalFaculty := 0, totalCourses := 0, totalSections := 0, averageByParameter := [] } :=
  ⟨rfl, rfl, rfl, rfl, rfl, rfl, rfl, rfl, rfl, rfl, rfl, rfl⟩

/-- C10: `applyNameMapping` preserves the number and order of rows; in each
output row every field other than the faculty column and the added
`_originalFacultyName` key is unchanged, and a row whose faculty cell is empty
or absent from the mapping is returned unchanged. -/
theorem applyNameMapping_frame (data : List Row) (facultyColumn : String)
    (mapping : List (String × String)) :
    (applyNameMapping data facultyColumn mapping).length = data.length ∧
    ∀ i (h1 : i < data.length) (h2 : i < (applyNameMapping data facultyColumn mapping).length),
      (∀ k, k ≠ facultyColumn → k ≠ "_originalFacultyName" →
        getCell ((applyNameMapping data facultyColumn mapping)[i]) k =
          getCell (data[i]) k) ∧
      ((jsTrimStr (getCell (data[i]) facultyColumn) = "" ∨
          lookupA mapping (jsTrimStr (getCell (data[i]) facultyColumn)) = none) →
        (applyNameMapping data facultyColumn mapping)[i] = data[i]) := by
  unfold applyNameMapping
  refine ⟨List.length_map _ _, ?_⟩
  intro i h1 h2
  rw [List.getElem_map]
  set row := data[i] with hrow
  by_cases hc : jsTrimStr (getCell row facultyColumn) ≠ "" ∧
      ((lookupA mapping (jsTrimStr (getCell row facultyColumn))).getD "") ≠ ""
  · rw [if_pos hc]
    constructor
    · intro k hk1 hk2
      rw [getCell_setAssoc_ne _ _ _ _ hk2, getCell_setAssoc_ne _ _ _ _ hk1]
    · intro hcond
      exfalso
      rcases hcond with heq | hnone
      · exact hc.1 heq
      · apply hc.2
        rw [hnone]
        rfl
  · rw [if_neg hc]
    exact ⟨fun k _ _ => rfl, fun _ => rfl⟩

theorem applyNameMapping_frame_witness :
    (applyNameMapping [[("Faculty", "Dr. Rao")], [("Faculty", "")]] "Faculty"
        [("Dr. Rao", "Rao")]).length = 2 ∧
    (applyNameMapping [[("Faculty", "Dr. Rao")], [("Faculty", "")]] "Faculty"
        [("Dr. Rao", "Rao")]).get ⟨1, by decide⟩ = [("Faculty", "")] := by
  have h := applyNameMapping_frame [[("Faculty", "Dr. Rao")], [("Faculty", "")]] "Faculty"
    [("Dr. Rao", "Rao")]
  refine ⟨h.1, ?_⟩
  have h2 := (h.2 1 (by decide) (by rw [h.1]; decide)).2 (by decide)
  rw [List.get_eq_getElem, h2]
  decide

/-- C5 counterexample: a filter on the category `"B"`, absent from the row
set's headers (here `["A"]`), is not ignored — `applyFilters` reads the
missing cell as `''`, `''` is not among the selected values, and every row is
rejected, while the remaining (empty) filter state keeps all rows. -/
theorem applyFilters_unknown_category_cex :
    "B" ∉ (([("A", "x")] : Row).map Prod.fst) ∧
    applyFilters [[("A", "x")]] [("B", ["y"])] none none = [] ∧
    applyFilters [[("A", "x")]] [] none none = [[("A", "x")]] ∧
    applyFilters [[("A", "x")]] [("B", ["y"])] none none ≠
      applyFilters [[("A", "x")]] [] none none := by decide

/-- A non-faculty entry passes through the expansion unchanged. -/
theorem expandEntry_not_faculty (nm : Option NameMapping) (fc : Option String)
    (p : String × List String) (h : ∀ f, fc = some f → p.1 ≠ f) :
    expandEntry nm fc p = p := by
  rcases fc with _ | f
  · rcases nm with _ | m <;> rfl
  · rcases nm with _ | m
    · rfl
    · have he : expandEntry (some m) (some f) p =
          if p.1 = f then (p.1, expandFacultyValues m p.2) else (p.1, p.2) := rfl
      rw [he, if_neg (h f rfl)]

theorem applyFilters_eq_filter (data : List Row) (filters : List (String × List String))
    (nm : Option NameMapping) (fc : Option String) :
    applyFilters data filters nm fc =
      data.filter
        (passesEntries ((filters.filter fun p => !p.2.isEmpty).map (expandEntry nm fc))) := by
  unfold applyFilters passesEntries
  split
  · next h =>
    rw [List.isEmpty_iff.mp h]
    simp
  · dsimp only
    split
    · next h =>
      rw [List.isEmpty_iff.mp h]
      simp
    · rfl

/-- C5 (amended): `applyFilters` never throws on a filter whose category is
absent from the rows' headers — but it is not silently ignored: the missing
cell reads as `''`, so all rows survive that category exactly when `''` is
among its selected values, and no row survives otherwise. -/
theorem applyFilters_absent_category (data : List Row)
    (base : List (String × List String)) (cat : String) (vals : List String)
    (nm : Option NameMapping) (fc : Option String)
    (hvals : vals ≠ [])
    (habs : ∀ row ∈ data, getCell row cat = "")
    (hfc : ∀ f, fc = some f → cat ≠ f) :
    applyFilters data (base ++ [(cat, vals)]) nm fc =
      if vals.contains "" then applyFilters data base nm fc else [] := by
  rw [applyFilters_eq_filter, applyFilters_eq_filter]
  have hsingle : ([(cat, vals)].filter fun p => !p.2.isEmpty) = [(cat, vals)] := by
    have hemp : ((cat, vals).2.isEmpty) = false :=
      List.isEmpty_eq_false_iff_exists_mem.mpr ⟨vals.head hvals, List.head_mem hvals⟩
    simp [List.filter_cons, hemp]
  have hsplit :
      ((base ++ [(cat, vals)]).filter fun p => !p.2.isEmpty).map (expandEntry nm fc) =
        ((base.filter fun p => !p.2.isEmpty).map (expandEntry nm fc)) ++ [(cat, vals)] := by
    rw [List.filter_append, List.map_append, hsingle]
    congr 1
    simp only [List.map_cons, List.map_nil]
    rw [expandEntry_not_faculty nm fc (cat, vals) fun f hf => hfc f hf]
  rw [hsplit]
  split
  · next hcont =>
    apply List.filter_congr
    intro row hrow
    unfold passesEntries
    rw [List.all_append]
    have hone : ([(cat, vals)].all fun e => e.2.contains (jsTrimStr (getCell row e.1))) =
        true := by
      simp only [List.all_cons, List.all_nil, Bool.and_true]
      rw [habs row hrow]
      exact hcont
    rw [hone, Bool.and_true]
  · next hcont =>
    have hfalse :
        data.filter
            (passesEntries
              (((base.filter fun p => !p.2.isEmpty).map (expandEntry nm fc)) ++ [(cat, vals)])) =
          data.filter fun _ => false := by
      apply List.filter_congr
      intro row hrow
      unfold passesEntries
      rw [List.all_append]
      have hone : ([(cat, vals)].all fun e => e.2.contains (jsTrimStr (getCell row e.1))) =
          false := by
        simp only [List.all_cons, List.all_nil, Bool.and_true]
        rw [habs row hrow]
        simpa using hcont
      rw [hone, Bool.and_false]
    rw [hfalse, List.filter_false]

theorem applyFilters_absent_category_witness :
    applyFilters [[("A", "x")]] ([("A", ["x"])] ++ [("B", ["y"])]) none none = [] := by
  have h := applyFilters_absent_category [[("A", "x")]] [("A", ["x"])] "B" ["y"] none none
    (by decide) (by decide) (fun f hf => by cases hf)
  simpa using h

theorem lookupA_eq_none_of_not_mem {β : Type _} {m : List (String × β)} {k : String}
    (h : k ∉ m.map Prod.fst) : lookupA m k = none := by
  unfold lookupA
  rw [Option.map_eq_none', List.find?_eq_none]
  intro p hp hpk
  exact h (List.mem_map.mpr ⟨p, hp, by simpa using hpk⟩)

theorem mergeCleanup_keys_sub (m : CategoryMerges) (sel : List String) (k : String)
    (h : k ∈ (mergeCleanup m sel).map Prod.fst) : k ∈ m.map Prod.fst := by
  unfold mergeCleanup at h
  rcases List.mem_map.mp h with ⟨p, hp, hpk⟩
  rcases List.mem_filter.mp hp with ⟨hp2, _⟩
  rcases List.mem_map.mp hp2 with ⟨q, hq, hqp⟩
  apply List.mem_map.mpr
  refine ⟨q, hq, ?_⟩
  rw [← hpk, ← hqp]

theorem lookupA_mergeCleanup (m : CategoryMerges) (sel : List String) (c : String)
    (hnd : (m.map Prod.fst).Nodup) :
    lookupA (mergeCleanup m sel) c =
      match lookupA m c with
      | some vs =>
        if vs.filter (fun v => !sel.contains v) = [] then none
        else some (vs.filter fun v => !sel.contains v)
      | none => none := by
  induction m with
  | nil => rfl
  | cons p rest ih =>
    simp only [List.map_cons, List.nodup_cons] at hnd
    have hstep : mergeCleanup (p :: rest) sel =
        if (p.2.filter fun v => !sel.contains v).isEmpty then mergeCleanup rest sel
        else (p.1, p.2.filter fun v => !sel.contains v) :: mergeCleanup rest sel := by
      unfold mergeCleanup
      simp only [List.map_cons, List.filter_cons]
      split
      · next hcond =>
        have hc2 : (p.2.filter fun v => !sel.contains v).isEmpty = false := by
          rwa [Bool.not_eq_true'] at hcond
        rw [if_neg (by rw [hc2]; exact Bool.false_ne_true)]
      · next hcond =>
        have hc2 : (p.2.filter fun v => !sel.contains v).isEmpty = true := by
          simpa using hcond
        rw [if_pos hc2]
    by_cases hpc : p.1 = c
    · have hlk : lookupA (p :: rest) c = some p.2 := by
        unfold lookupA
        rw [List.find?_cons, show (p.1 == c) = true by simpa using hpc]
        rfl
      rw [hlk, hstep]
      have hred :
          (match some p.2 with
            | some vs =>
              if vs.filter (fun v => !sel.contains v) = [] then none
              else some (vs.filter fun v => !sel.contains v)
            | none => none) =
            if p.2.filter (fun v => !sel.contains v) = [] then none
            else some (p.2.filter fun v => !sel.contains v) := rfl
      rw [hred]
      split
      · next hemp =>
        have hnil : p.2.filter (fun v => !sel.contains v) = [] :=
          List.isEmpty_iff.mp hemp
        rw [if_pos hnil]
        apply lookupA_eq_none_of_not_mem
        intro hmem
        apply hnd.1
        rw [hpc]
        exact mergeCleanup_keys_sub rest sel c hmem
      · next hemp =>
        have hnil : p.2.filter (fun v => !sel.contains v) ≠ [] := by
          intro hn
          rw [hn] at hemp
          exact hemp rfl
        rw [if_neg hnil]
        unfold lookupA
        rw [List.find?_cons,
          show ((p.1, p.2.filter fun v => !sel.contains v).1 == c) = true by simpa using hpc]
        rfl
    · have hlk : lookupA (p :: rest) c = lookupA rest c := by
        unfold lookupA
        rw [List.find?_cons, show (p.1 == c) = false by simpa using hpc]
      rw [hlk, hstep]
      split
      · exact ih hnd.2
      · have hlk2 :
            lookupA ((p.1, p.2.filter fun v => !sel.contains v) :: mergeCleanup rest sel) c =
              lookupA (mergeCleanup rest sel) c := by
          unfold lookupA
          rw [List.find?_cons,
            show ((p.1, p.2.filter fun v => !sel.contains v).1 == c) = false by simpa using hpc]
        rw [hlk2]
        exact ih hnd.2

/-- C9: a merge with a non-empty canonical name and at least two selected
variants (and an active sheet) removes the selected variants from every
existing canonical group of the category, deletes groups left empty, and
inserts `canonicalName -> selectedVariants`; other categories are untouched.
A request with an empty canonical name or fewer than two variants leaves the
overlay unchanged. -/
theorem handleConfirmMerge_spec (overlay : MergedNames) (category canonical : String)
    (selected : List String) (sid : Option String)
    (hnd : (((lookupA overlay category).getD []).map Prod.fst).Nodup) :
    (canonical = "" ∨ selected.length < 2 →
      handleConfirmMerge overlay category canonical selected sid = overlay) ∧
    (canonical ≠ "" → 2 ≤ selected.length → (sid.getD "") ≠ "" →
      (∀ cat', cat' ≠ category →
        lookupA (handleConfirmMerge overlay category canonical selected sid) cat' =
          lookupA overlay cat') ∧
      ∃ newCat,
        lookupA (handleConfirmMerge overlay category canonical selected sid) category =
          some newCat ∧
        lookupA newCat canonical = some selected ∧
        ∀ c, c ≠ canonical →
          lookupA newCat c =
            match lookupA ((lookupA overlay category).getD []) c with
            | some vs =>
              if vs.filter (fun v => !selected.contains v) = [] then none
              else some (vs.filter fun v => !selected.contains v)
            | none => none) := by
  constructor
  · intro h
    unfold handleConfirmMerge
    rw [if_pos]
    rcases h with h | h
    · simp [h]
    · simp [h]
  · intro h1 h2 h3
    have hguard : (canonical = "" || selected.length < 2 || (sid.getD "") = "") = false := by
      simp only [Bool.or_eq_false_iff]
      refine ⟨⟨by simpa using h1, ?_⟩, by simpa using h3⟩
      simp only [decide_eq_false_iff_not]
      omega
    have hres : handleConfirmMerge overlay category canonical selected sid =
        setAssoc overlay category
          (setAssoc (mergeCleanup ((lookupA overlay category).getD []) selected)
            canonical selected) := by
      unfold handleConfirmMerge
      rw [if_neg (by simp only [hguard]; exact Bool.false_ne_true)]
    constructor
    · intro cat' hcat'
      rw [hres, lookupA_setAssoc_ne _ _ _ _ hcat']
    · refine ⟨_, by rw [hres, lookupA_setAssoc_self], lookupA_setAssoc_self _ _ _, ?_⟩
      intro c hc
      rw [lookupA_setAssoc_ne _ _ _ _ hc]
      exact lookupA_mergeCleanup _ selected c hnd

theorem handleConfirmMerge_spec_witness :
    handleConfirmMerge [("Faculty", [("Rao", ["Dr. Rao", "Rao Sir"])])] "Faculty" ""
        ["Dr. Rao", "RAO"] (some "sheet1") =
      [("Faculty", [("Rao", ["Dr. Rao", "Rao Sir"])])] ∧
    lookupA
        (handleConfirmMerge [("Faculty", [("Rao", ["Dr. Rao", "Rao Sir"])])] "Faculty" "Rao2"
          ["Rao Sir", "X"] (some "sheet1"))
        "Faculty" ≠ none := by
  constructor
  · exact (handleConfirmMerge_spec [("Faculty", [("Rao", ["Dr. Rao", "Rao Sir"])])] "Faculty"
      "" ["Dr. Rao", "RAO"] (some "sheet1") (by decide)).1 (Or.inl rfl)
  · have h := (handleConfirmMerge_spec [("Faculty", [("Rao", ["Dr. Rao", "Rao Sir"])])]
      "Faculty" "Rao2" ["Rao Sir", "X"] (some "sheet1") (by decide)).2
      (by decide) (by decide) (by decide)
    rcases h.2 with ⟨newCat, hlk, _, _⟩
    rw [hlk]
    exact fun hh => by cases hh

theorem any_map_general {α β : Type _} (f : α → β) (l : List α) (p : β → Bool) :
    (l.map f).any p = l.any fun a => p (f a) := by
  induction l with
  | nil => rfl
  | cons a rest ih => simp [List.any_cons, ih]

theorem scanVals_eq (l : List String) (b : Bool) :
    scanVals l b = (b || l.any fun v => jsAnyKey LIKERT_MAPPING v || isNumericRating v) := by
  induction l generalizing b with
  | nil => simp [scanVals]
  | cons v rest ih =>
    unfold scanVals
    split
    · next h => simp [h, List.any_cons]
    · next h =>
      rw [ih]
      simp only [List.any_cons]
      rw [show (jsAnyKey LIKERT_MAPPING v) = false by simpa using h]
      cases b <;> cases hnum : isNumericRating v <;> simp

/-- C7: `identifyQuestionColumns` classifies a header as a question column
exactly when its trimmed length is at least 15, it does not match the metadata
denylist (prefix/exact match, or containing both "remark" and "special"), and
at least one of the first `min(100, rows)` sample values is a Likert response
or parses as a number in `[1, 5]`; in particular the example header with
sample values Strongly Agree, Agree, Agree, Neutral is a question column with
score `mean(5,4,4,3) = 4.0`. -/
theorem identifyQuestionColumns_spec :
    (∀ (headers : List String) (data : List Row),
      identifyQuestionColumns headers data = headers.filter (isQuestionHeaderSpec data)) ∧
    identifyQuestionColumns [exHeader] exData = [exHeader] ∧
    calculateQuestionScores exData [exHeader] =
      [{ question := exHeader
         score := 4
         distribution :=
           { stronglyAgree := 1, agree := 2, neutral := 1, disagree := 0, stronglyDisagree := 0 }
         validResponses := 4 }] := by
  refine ⟨?_, by with_unfolding_all decide, by with_unfolding_all decide⟩
  intro headers data
  unfold identifyQuestionColumns
  apply List.filter_congr
  intro header _
  unfold isQuestionHeaderSpec
  by_cases hlen : (jsTrimStr header).length < 15
  · rw [if_pos hlen]
    rw [show (decide (15 ≤ (jsTrimStr header).length)) = false by simpa using hlen]
    simp
  · rw [if_neg hlen]
    rw [show (decide (15 ≤ (jsTrimStr header).length)) = true by
      simp only [decide_eq_true_eq]
      omega]
    by_cases hmeta : isMetadataHeader (jsTrimStr (jsLower header)) = true
    · rw [if_pos hmeta, hmeta]
      simp
    · rw [if_neg hmeta]
      rw [show isMetadataHeader (jsTrimStr (jsLower header)) = false by simpa using hmeta]
      rw [scanVals_eq]
      simp only [Bool.false_or, Bool.true_and, Bool.not_false]
      rw [any_map_general]


theorem lookupA_upsert_self {β : Type _} (m : List (String × β)) (k : String) (f : β → β)
    (d : β) : lookupA (upsert m k f d) k = some (f ((lookupA m k).getD d)) :=
  lookupA_setAssoc_self m k _

theorem lookupA_upsert_ne {β : Type _} (m : List (String × β)) (k : String) (f : β → β)
    (d : β) (k' : String) (h : k' ≠ k) : lookupA (upsert m k f d) k' = lookupA m k' :=
  lookupA_setAssoc_ne m k _ k' h

theorem nodupKeys_upsert {β : Type _} (m : List (String × β)) (k : String) (f : β → β)
    (d : β) (h : (m.map Prod.fst).Nodup) : ((upsert m k f d).map Prod.fst).Nodup :=
  nodupKeys_setAssoc m k _ h

theorem bucketRowMeans_cons (pd : String → Option SimpleDate) (row : Row) (data : List Row)
    (tc : String) (qc : List String) (k : String) :
    bucketRowMeans pd (row :: data) tc qc k =
      (if getCell row tc = "" then []
        else
          match pd (getCell row tc) with
          | none => []
          | some d =>
            if getWeekKey d = k then
              match rowMeanScore row qc with
              | some rm => [rm]
              | none => []
            else []) ++ bucketRowMeans pd data tc qc k := by
  unfold bucketRowMeans
  simp only [List.filterMap_cons]
  by_cases hts : getCell row tc = ""
  · simp [hts]
  · cases hd : pd (getCell row tc) with
    | none => simp [hts, hd]
    | some d =>
      by_cases hk : getWeekKey d = k
      · cases hrm : rowMeanScore row qc with
        | none => simp [hts, hd, hk, hrm]
        | some rm => simp [hts, hd, hk, hrm]
      · simp [hts, hd, hk]

theorem bucketInhabited_cons (pd : String → Option SimpleDate) (row : Row) (data : List Row)
    (tc : String) (k : String) :
    bucketInhabited pd (row :: data) tc k =
      ((if getCell row tc = "" then false
        else
          match pd (getCell row tc) with
          | none => false
          | some d => getWeekKey d == k) || bucketInhabited pd data tc k) := by
  unfold bucketInhabited
  simp only [List.any_cons]
  by_cases hts : getCell row tc = ""
  · simp [hts]
  · cases hd : pd (getCell row tc) with
    | none => simp [hts, hd]
    | some d => simp [hts, hd]

theorem lookupA_weeklyFold (pd : String → Option SimpleDate) (tc : String)
    (qc : List String) (data : List Row) (init : List (String × List Rat)) (k : String) :
    lookupA (data.foldl (weeklyStep pd tc qc) init) k =
      match lookupA init k with
      | some l => some (l ++ bucketRowMeans pd data tc qc k)
      | none =>
        if bucketInhabited pd data tc k then some (bucketRowMeans pd data tc qc k)
        else none := by
  induction data generalizing init with
  | nil =>
    have hb : bucketRowMeans pd [] tc qc k = [] := rfl
    have hi : bucketInhabited pd [] tc k = false := rfl
    rw [List.foldl_nil, hb, hi]
    cases h : lookupA init k with
    | none => simp
    | some l => simp
  | cons row rest ih =>
    rw [List.foldl_cons, ih, bucketRowMeans_cons, bucketInhabited_cons]
    by_cases hts : getCell row tc = ""
    · rw [show weeklyStep pd tc qc init row = init by unfold weeklyStep; simp [hts]]
      simp [hts]
    · cases hd : pd (getCell row tc) with
      | none =>
        rw [show weeklyStep pd tc qc init row = init by unfold weeklyStep; simp [hts, hd]]
        simp [hts, hd]
      | some d =>
        have hstep : weeklyStep pd tc qc init row =
            upsert init (getWeekKey d)
              (fun l =>
                match rowMeanScore row qc with
                | some rm => l ++ [rm]
                | none => l)
              [] := by
          unfold weeklyStep
          simp [hts, hd]
        rw [hstep]
        by_cases hk : getWeekKey d = k
        · subst hk
          rw [lookupA_upsert_self]
          cases hl : lookupA init (getWeekKey d) with
          | some l =>
            cases hrm : rowMeanScore row qc with
            | none => simp [hts, hd, hrm]
            | some rm => simp [hts, hd, hrm]
          | none =>
            cases hrm : rowMeanScore row qc with
            | none => simp [hts, hd, hrm]
            | some rm => simp [hts, hd, hrm]
        · rw [lookupA_upsert_ne _ _ _ _ k fun hh => hk hh.symm]
          have hbk : (getWeekKey d == k) = false := by simpa using hk
          simp [hts, hd, hk, hbk]

theorem nodupKeys_weeklyFold (pd : String → Option SimpleDate) (tc : String)
    (qc : List String) (data : List Row) (init : List (String × List Rat))
    (h : (init.map Prod.fst).Nodup) :
    (((data.foldl (weeklyStep pd tc qc) init)).map Prod.fst).Nodup := by
  induction data generalizing init with
  | nil => exact h
  | cons row rest ih =>
    rw [List.foldl_cons]
    apply ih
    unfold weeklyStep
    by_cases hts : getCell row tc = ""
    · simpa [hts] using h
    · cases hd : pd (getCell row tc) with
      | none => simpa [hts, hd] using h
      | some d =>
        cases hrm : rowMeanScore row qc with
        | none =>
          simp only [hts, hd, hrm, if_neg hts, if_false]
          exact nodupKeys_upsert _ _ _ _ h
        | some rm =>
          simp only [hts, hd, hrm, if_neg hts, if_false]
          exact nodupKeys_upsert _ _ _ _ h

theorem weeklyFold_mem (pd : String → Option SimpleDate) (tc : String) (qc : List String)
    (data : List Row) (p : String × List Rat)
    (hp : p ∈ data.foldl (weeklyStep pd tc qc) []) :
    p.2 = bucketRowMeans pd data tc qc p.1 ∧ bucketInhabited pd data tc p.1 = true := by
  have hnd := nodupKeys_weeklyFold pd tc qc data [] (by simp)
  have hp2 : (p.1, p.2) ∈ data.foldl (weeklyStep pd tc qc) [] := by
    rw [Prod.mk.eta]
    exact hp
  have hlk := lookupA_mem hnd hp2
  rw [lookupA_weeklyFold] at hlk
  rw [show lookupA ([] : List (String × List Rat)) p.1 = none from rfl] at hlk
  split at hlk
  · next heq => exact Option.noConfusion heq
  · split at hlk
    · next hin => exact ⟨(Option.some.inj hlk).symm, hin⟩
    · exact Option.noConfusion hlk

set_option maxRecDepth 100000 in
/-- C4 counterexample: with one January row (mean 5) and one April row
(mean 4) of the same year, `calculateTimeTrends` returns the April bucket
before the January bucket — the output is ordered by the alphabetical
month-abbreviation label, not chronologically ascending. -/
theorem calculateTimeTrends_not_chronological_cex :
    calculateTimeTrends c4parse c4data c4headers c4qcols =
      [{ label := "Apr W1", value := 4 }, { label := "Jan W1", value := 5 }] ∧
    c4parse "2024-01-03" = some { year := 2024, month := 1, day := 3 } ∧
    c4parse "2024-04-03" = some { year := 2024, month := 4, day := 3 } ∧
    getWeekKey { year := 2024, month := 1, day := 3 } = "Jan W1" ∧
    getWeekKey { year := 2024, month := 4, day := 3 } = "Apr W1" ∧
    (1 : Nat) < 4 ∧
    (calculateTimeTrends c4parse c4data c4headers c4qcols).map TrendPoint.label ≠
      ["Jan W1", "Apr W1"] := by
  with_unfolding_all decide

theorem trendLe_trans (a b c : String × List Rat) :
    (decide (a.1 ≤ b.1)) = true → (decide (b.1 ≤ c.1)) = true →
      (decide (a.1 ≤ c.1)) = true := by
  simp only [decide_eq_true_eq]
  exact le_trans

theorem trendLe_total (a b : String × List Rat) :
    ((decide (a.1 ≤ b.1)) || (decide (b.1 ≤ a.1))) = true := by
  simp only [Bool.or_eq_true, decide_eq_true_eq]
  exact le_total a.1 b.1

/-- C4 (amended): `calculateTimeTrends` buckets rows by month-abbreviation +
week-of-month (`week = ceil(day/7)`, year dropped), returns at most 10
buckets, ordered ascending by the bucket label (alphabetical by the month's
short name — not chronologically), keeping the last 10 of that label order;
every returned bucket is fed by some row, and a bucket with at least one
valid row mean carries the mean of its rows' per-row question means rounded
to 2 decimals. The final conjunct states the selection exactly: there is a
label-sorted duplicate-free bucket list whose keys are precisely the
inhabited week keys of the data and whose entries carry the bucket row
means, and the output is the map over the last `min 10 n` buckets of that
label order (the drop of all but the last 10). -/
theorem calculateTimeTrends_spec (pd : String → Option SimpleDate) (data : List Row)
    (headers questionColumns : List String) (tc : String)
    (htc : headers.find?
        (fun h => jsIncludes (jsLower h) "timestamp" || jsIncludes (jsLower h) "date" ||
          jsIncludes (jsLower h) "time") = some tc)
    (hq : questionColumns ≠ []) :
    (calculateTimeTrends pd data headers questionColumns).length ≤ 10 ∧
    List.Pairwise (fun a b : TrendPoint => a.label ≤ b.label)
      (calculateTimeTrends pd data headers questionColumns) ∧
    (∀ pt ∈ calculateTimeTrends pd data headers questionColumns,
      bucketInhabited pd data tc pt.label = true ∧
      (bucketRowMeans pd data tc questionColumns pt.label ≠ [] →
        pt.value =
          round2 ((bucketRowMeans pd data tc questionColumns pt.label).sum /
            ((bucketRowMeans pd data tc questionColumns pt.label).length : Rat)))) ∧
    ∃ buckets : List (String × List Rat),
      (buckets.map Prod.fst).Nodup ∧
      (∀ k, k ∈ buckets.map Prod.fst ↔ bucketInhabited pd data tc k = true) ∧
      (∀ p ∈ buckets, p.2 = bucketRowMeans pd data tc questionColumns p.1) ∧
      List.Pairwise (fun a b : String × List Rat => a.1 ≤ b.1) buckets ∧
      calculateTimeTrends pd data headers questionColumns =
        (buckets.drop (buckets.length - 10)).map
          (fun p => { label := p.1, value := round2 ((p.2.sum) / (p.2.length : Rat)) }) := by
  have hout : calculateTimeTrends pd data headers questionColumns =
      (((data.foldl (weeklyStep pd tc questionColumns) []).mergeSort
          (fun a b => a.1 ≤ b.1)).drop
        (((data.foldl (weeklyStep pd tc questionColumns) []).mergeSort
            (fun a b => a.1 ≤ b.1)).length - 10)).map
        (fun p => { label := p.1, value := round2 ((p.2.sum) / (p.2.length : Rat)) }) := by
    unfold calculateTimeTrends
    rw [htc]
    simp only [List.isEmpty_eq_false_iff_exists_mem.mpr
      ⟨questionColumns.head hq, List.head_mem hq⟩, Bool.false_eq_true, if_false]
  rw [hout]
  set weekly := data.foldl (weeklyStep pd tc questionColumns) [] with hweekly
  set sorted := weekly.mergeSort (fun a b => a.1 ≤ b.1) with hsorted
  have hndw : (weekly.map Prod.fst).Nodup := by
    rw [hweekly]
    exact nodupKeys_weeklyFold pd tc questionColumns data [] (by simp)
  have hperm : sorted.Perm weekly := by
    rw [hsorted]
    exact List.mergeSort_perm weekly _
  have hpw : List.Pairwise (fun a b : String × List Rat => (decide (a.1 ≤ b.1)) = true)
      sorted := by
    rw [hsorted]
    exact List.sorted_mergeSort trendLe_trans trendLe_total weekly
  refine ⟨?_, ?_, ?_, ?_⟩
  · rw [List.length_map, List.length_drop]
    omega
  · have hpwd := List.Pairwise.sublist (List.drop_sublist (sorted.length - 10) sorted) hpw
    rw [List.pairwise_map]
    exact hpwd.imp fun hab => by simpa using hab
  · intro pt hpt
    rcases List.mem_map.mp hpt with ⟨p, hpmem, hpf⟩
    have hpws : p ∈ weekly := by
      have := (List.drop_sublist (sorted.length - 10) sorted).subset hpmem
      rwa [hsorted, List.mem_mergeSort] at this
    have hchar := weeklyFold_mem pd tc questionColumns data p hpws
    have hlabel : pt.label = p.1 := by rw [← hpf]
    have hvalue : pt.value = round2 ((p.2.sum) / (p.2.length : Rat)) := by rw [← hpf]
    rw [hlabel, hvalue]
    refine ⟨hchar.2, fun _ => ?_⟩
    rw [hchar.1]
  · refine ⟨sorted, ?_, ?_, ?_, ?_, rfl⟩
    · exact (hperm.map Prod.fst).nodup_iff.mpr hndw
    · intro k
      constructor
      · intro hk
        rcases List.mem_map.mp hk with ⟨p, hp, hpk⟩
        have hpws : p ∈ weekly := by
          rwa [hsorted, List.mem_mergeSort] at hp
        have hchar := weeklyFold_mem pd tc questionColumns data p hpws
        rw [← hpk]
        exact hchar.2
      · intro hbi
        have hlk : lookupA weekly k =
            some (bucketRowMeans pd data tc questionColumns k) := by
          rw [hweekly, lookupA_weeklyFold]
          rw [show lookupA ([] : List (String × List Rat)) k = none from rfl]
          exact if_pos hbi
        have hmem := mem_of_lookupA hlk
        refine List.mem_map.mpr ⟨(k, bucketRowMeans pd data tc questionColumns k), ?_, rfl⟩
        rw [hsorted, List.mem_mergeSort]
        exact hmem
    · intro p hp
      have hpws : p ∈ weekly := by
        rwa [hsorted, List.mem_mergeSort] at hp
      exact (weeklyFold_mem pd tc questionColumns data p hpws).1
    · exact hpw.imp fun hab => by simpa using hab

theorem calculateTimeTrends_spec_witness :
    (calculateTimeTrends c4parse c4data c4headers c4qcols).length ≤ 10 ∧
    List.Pairwise (fun a b : TrendPoint => a.label ≤ b.label)
      (calculateTimeTrends c4parse c4data c4headers c4qcols) :=
  ⟨(calculateTimeTrends_spec c4parse c4data c4headers c4qcols "Timestamp"
      (by with_unfolding_all decide) (by decide)).1,
    (calculateTimeTrends_spec c4parse c4data c4headers c4qcols "Timestamp"
        (by with_unfolding_all decide) (by decide)).2.1⟩

theorem groupLoop_flatten_perm (t : Rat) (l : List NameEntry) :
    ((groupLoop t l).flatten).Perm l := by
  induction l using groupLoop.induct t with
  | case1 => simp [groupLoop]
  | case2 seed rest ih =>
    rw [groupLoop, List.flatten_cons]
    refine List.Perm.trans (List.Perm.append_left _ ih) ?_
    rw [List.cons_append]
    exact List.Perm.cons seed (List.filter_append_perm _ rest)

theorem countP_contains_of_count_flatten_one (L : List (List String)) (v : String)
    (h : (L.flatten).count v = 1) : (L.countP fun s => s.contains v) = 1 := by
  induction L with
  | nil => simp at h
  | cons s rest ih =>
    rw [List.flatten_cons, List.count_append] at h
    rw [List.countP_cons]
    by_cases hv : s.contains v = true
    · have h1 : 0 < s.count v := List.count_pos_iff.mpr (by simpa using hv)
      have h2 : rest.flatten.count v = 0 := by omega
      have h3 : (rest.countP fun s' => s'.contains v) = 0 := by
        rw [List.countP_eq_zero]
        intro s' hs' hc
        have hm : v ∈ s' := by simpa using hc
        have : 0 < s'.count v := List.count_pos_iff.mpr hm
        have hle : s'.count v ≤ rest.flatten.count v := by
          rw [List.count_flatten]
          exact List.le_sum_of_mem (List.mem_map.mpr ⟨s', hs', rfl⟩)
        omega
      rw [h3, if_pos hv]
    · have h0 : s.count v = 0 := by
        rw [List.count_eq_zero]
        intro hm
        exact hv (by simpa using hm)
      rw [if_neg hv]
      exact ih (by omega)

/-- C2: for every variant list with pairwise-distinct raw names and every
threshold, `groupSimilarNames` partitions the input: the concatenation of all
groups' variant lists is a permutation of the input names, and each input name
lies in exactly one group. -/
theorem groupSimilarNames_partition (names : List (String × Nat)) (t : Rat)
    (h : (names.map Prod.fst).Nodup) :
    (((groupSimilarNames names t).map NameGroup.variants).flatten).Perm
      (names.map Prod.fst) ∧
    ∀ v ∈ names.map Prod.fst,
      ((groupSimilarNames names t).countP fun g => g.variants.contains v) = 1 := by
  have hvar : (groupSimilarNames names t).map NameGroup.variants =
      ((groupLoop t ((mkNameData names).mergeSort fun a b => b.count ≤ a.count)).map
        fun g => g.map (·.original)) := by
    unfold groupSimilarNames
    rw [List.map_map]
    rfl
  have hperm : (((groupSimilarNames names t).map NameGroup.variants).flatten).Perm
      (names.map Prod.fst) := by
    rw [hvar, ← List.map_flatten]
    have h1 := groupLoop_flatten_perm t ((mkNameData names).mergeSort
      fun a b => b.count ≤ a.count)
    have h2 : ((mkNameData names).mergeSort fun a b => b.count ≤ a.count).Perm
        (mkNameData names) := List.mergeSort_perm _ _
    have h3 := (h1.trans h2).map (fun e : NameEntry => e.original)
    refine h3.trans ?_
    rw [show (mkNameData names).map (fun e : NameEntry => e.original) =
        names.map Prod.fst by
      unfold mkNameData
      rw [List.map_map]
      rfl]
  refine ⟨hperm, ?_⟩
  intro v hv
  have hcount : (((groupSimilarNames names t).map NameGroup.variants).flatten).count v = 1 := by
    rw [hperm.count_eq]
    exact List.count_eq_one_of_mem h hv
  have := countP_contains_of_count_flatten_one _ v hcount
  rwa [List.countP_map] at this

theorem groupSimilarNames_partition_witness :
    (((groupSimilarNames [("Dr. Rao", 2), ("RAO", 1)] (3 / 4)).map
        NameGroup.variants).flatten).Perm
      ([("Dr. Rao", 2), ("RAO", 1)].map Prod.fst) :=
  (groupSimilarNames_partition [("Dr. Rao", 2), ("RAO", 1)] (3 / 4) (by decide)).1

/-! ## `findCanonicalName` (C6) -/

theorem totalRawCount_cons (e : NameEntry) (g : List NameEntry) (raw : String) :
    totalRawCount (e :: g) raw =
      (if e.original = raw then e.count else 0) + totalRawCount g raw := by
  unfold totalRawCount
  rw [List.filter_cons]
  split
  · next hc =>
    rw [if_pos (by simpa using hc)]
    simp
  · next hc =>
    rw [if_neg (by simpa using hc)]
    simp

theorem lookupA_countFoldAux (g : List NameEntry) (init : List (String × Nat)) (k : String) :
    lookupA (g.foldl (fun m e => upsert m e.original (· + e.count) 0) init) k =
      match lookupA init k with
      | some v => some (v + totalRawCount g k)
      | none =>
        if (g.map (·.original)).contains k then some (totalRawCount g k) else none := by
  induction g generalizing init with
  | nil =>
    have hz : totalRawCount [] k = 0 := rfl
    rw [List.foldl_nil, hz]
    cases h : lookupA init k with
    | none => simp
    | some v => simp
  | cons e rest ih =>
    rw [List.foldl_cons, ih, totalRawCount_cons]
    by_cases hk : e.original = k
    · subst hk
      rw [lookupA_upsert_self init e.original _ 0]
      cases hl : lookupA init e.original with
      | some v =>
        simp only [Option.getD_some]
        simp [Nat.add_assoc]
      | none =>
        simp only [Option.getD_none, List.map_cons, List.contains_cons, beq_self_eq_true,
          Bool.true_or, if_pos rfl]
        simp
    · rw [lookupA_upsert_ne init e.original _ 0 k fun hh => hk hh.symm]
      rw [if_neg hk]
      cases hl : lookupA init k with
      | some v => simp
      | none =>
        simp only [List.map_cons, List.contains_cons]
        rw [show (k == e.original) = false by simpa using fun hh => hk hh.symm]
        simp

theorem lookupA_countFold (g : List NameEntry) (k : String) :
    lookupA (countFold g) k =
      if (g.map (·.original)).contains k then some (totalRawCount g k) else none := by
  unfold countFold
  rw [lookupA_countFoldAux]
  rfl

theorem nodupKeys_countFold (g : List NameEntry) : ((countFold g).map Prod.fst).Nodup := by
  unfold countFold
  suffices h : ∀ init : List (String × Nat), (init.map Prod.fst).Nodup →
      ((g.foldl (fun m e => upsert m e.original (· + e.count) 0) init).map Prod.fst).Nodup by
    exact h [] (by simp)
  induction g with
  | nil => intro init h; exact h
  | cons e rest ih =>
    intro init h
    rw [List.foldl_cons]
    exact ih _ (nodupKeys_upsert _ _ _ _ h)

theorem mem_countFold (g : List NameEntry) (p : String × Nat) (hp : p ∈ countFold g) :
    p.1 ∈ g.map (·.original) ∧ p.2 = totalRawCount g p.1 := by
  have hlk : lookupA (countFold g) p.1 = some p.2 := by
    apply lookupA_mem (nodupKeys_countFold g)
    rw [Prod.mk.eta]
    exact hp
  rw [lookupA_countFold] at hlk
  split at hlk
  · next hc => exact ⟨by simpa using hc, (Option.some.inj hlk).symm⟩
  · exact Option.noConfusion hlk

theorem canonSortLe_trans (a b c : String × Nat) :
    canonSortLe a b = true → canonSortLe b c = true → canonSortLe a c = true := by
  unfold canonSortLe
  simp only [Bool.or_eq_true, Bool.and_eq_true, decide_eq_true_eq, beq_iff_eq]
  omega

theorem canonSortLe_total (a b : String × Nat) :
    (canonSortLe a b || canonSortLe b a) = true := by
  unfold canonSortLe
  simp only [Bool.or_eq_true, Bool.and_eq_true, decide_eq_true_eq, beq_iff_eq]
  omega

/-- C6: `findCanonicalName` returns `normalizeName` of a raw string of the
group whose summed per-raw-string occurrence count is maximal, with ties going
to a raw string whose normalized form is at least as long as every other
raw string's of the same count. -/
theorem findCanonicalName_spec (g : List NameEntry) (hne : g ≠ []) :
    ∃ w ∈ g.map (·.original),
      findCanonicalName g = normalizeName w ∧
      ∀ u ∈ g.map (·.original),
        totalRawCount g u < totalRawCount g w ∨
        (totalRawCount g u = totalRawCount g w ∧
          (normalizeName u).length ≤ (normalizeName w).length) := by
  have hhead : (g.head hne).original ∈ g.map (·.original) :=
    List.mem_map.mpr ⟨g.head hne, List.head_mem hne, rfl⟩
  have hcfne : countFold g ≠ [] := by
    intro hnil
    have hchar := lookupA_countFold g (g.head hne).original
    rw [hnil, if_pos (List.elem_eq_true_of_mem hhead)] at hchar
    exact Option.noConfusion hchar
  obtain ⟨x, tail, hx⟩ : ∃ x tail, (countFold g).mergeSort canonSortLe = x :: tail := by
    cases hs : (countFold g).mergeSort canonSortLe with
    | nil =>
      exfalso
      apply hcfne
      have hperm := List.mergeSort_perm (countFold g) canonSortLe
      rw [hs] at hperm
      exact (hperm.symm).eq_nil
    | cons a b => exact ⟨a, b, rfl⟩
  have hfc : findCanonicalName g = normalizeName x.1 := by
    unfold findCanonicalName
    rw [hx]
  have hxmem : x ∈ countFold g := by
    have hxms : x ∈ (countFold g).mergeSort canonSortLe := by
      rw [hx]
      exact List.mem_cons_self x tail
    exact List.mem_mergeSort.mp hxms
  have hxc := mem_countFold g x hxmem
  refine ⟨x.1, hxc.1, hfc, ?_⟩
  intro u hu
  have hulk : lookupA (countFold g) u = some (totalRawCount g u) := by
    rw [lookupA_countFold, if_pos (List.elem_eq_true_of_mem hu)]
  have humem2 : (u, totalRawCount g u) ∈ x :: tail := by
    rw [← hx]
    exact List.mem_mergeSort.mpr (mem_of_lookupA hulk)
  have hpw : List.Pairwise (fun a b => canonSortLe a b = true)
      ((countFold g).mergeSort canonSortLe) :=
    List.sorted_mergeSort canonSortLe_trans canonSortLe_total _
  rw [hx] at hpw
  rcases List.mem_cons.mp humem2 with heq | htl
  · have h1 : u = x.1 := by rw [← heq]
    right
    exact ⟨by rw [h1], by rw [h1]⟩
  · have hle := (List.pairwise_cons.mp hpw).1 _ htl
    unfold canonSortLe at hle
    simp only [Bool.or_eq_true, Bool.and_eq_true, decide_eq_true_eq, beq_iff_eq] at hle
    rw [hxc.2] at hle
    simpa using hle

theorem findCanonicalName_spec_witness :
    ∃ w ∈ ([⟨"Dr. Rao", "Rao", 2⟩, ⟨"RAO", "Rao", 1⟩] : List NameEntry).map (·.original),
      findCanonicalName [⟨"Dr. Rao", "Rao", 2⟩, ⟨"RAO", "Rao", 1⟩] = normalizeName w ∧
      ∀ u ∈ ([⟨"Dr. Rao", "Rao", 2⟩, ⟨"RAO", "Rao", 1⟩] : List NameEntry).map (·.original),
        totalRawCount [⟨"Dr. Rao", "Rao", 2⟩, ⟨"RAO", "Rao", 1⟩] u <
          totalRawCount [⟨"Dr. Rao", "Rao", 2⟩, ⟨"RAO", "Rao", 1⟩] w ∨
        (totalRawCount [⟨"Dr. Rao", "Rao", 2⟩, ⟨"RAO", "Rao", 1⟩] u =
            totalRawCount [⟨"Dr. Rao", "Rao", 2⟩, ⟨"RAO", "Rao", 1⟩] w ∧
          (normalizeName u).length ≤ (normalizeName w).length) :=
  findCanonicalName_spec [⟨"Dr. Rao", "Rao", 2⟩, ⟨"RAO", "Rao", 1⟩] (by decide)

/-! ## Cross-group distinctness and the faculty filter expansion (C3) -/

theorem levDP_diag (s : List Char) (i : Nat) : levDP s s i i = 0 := by
  induction i with
  | zero => simp [levDP]
  | succ n ih =>
    rw [levDP, if_pos rfl]
    exact ih

theorem levenshteinDistance_self (s : String) : levenshteinDistance s s = 0 := by
  unfold levenshteinDistance
  exact levDP_diag s.toList s.length

theorem similarity_self (s : String) : similarity s s = 1 := by
  unfold similarity
  rw [levenshteinDistance_self]
  dsimp only
  split
  · rfl
  · simp

theorem matchesSeed_congr (t : Rat) (s : NameEntry) {e1 e2 : NameEntry}
    (h : e1.normalized = e2.normalized) : matchesSeed t s e1 = matchesSeed t s e2 := by
  unfold matchesSeed
  rw [h]

theorem matchesSeed_of_norm_eq (t : Rat) (ht : t ≤ 1) (s : NameEntry) {e : NameEntry}
    (h : e.normalized = s.normalized) : matchesSeed t s e = true := by
  unfold matchesSeed
  rw [h, similarity_self]
  rw [if_pos ht]

theorem groupLoop_pairwise_norm (t : Rat) (ht : t ≤ 1) (l : List NameEntry) :
    List.Pairwise (fun g1 g2 => ∀ e1 ∈ g1, ∀ e2 ∈ g2, e1.normalized ≠ e2.normalized)
      (groupLoop t l) := by
  induction l using groupLoop.induct t with
  | case1 => simp [groupLoop]
  | case2 seed rest ih =>
    rw [groupLoop, List.pairwise_cons]
    constructor
    · intro g2 hg2 e1 he1 e2 he2 hnorm
      have he2B : e2 ∈ rest.filter (fun e => !matchesSeed t seed e) := by
        have hfl : e2 ∈ (groupLoop t (rest.filter fun e => !matchesSeed t seed e)).flatten :=
          List.mem_flatten.mpr ⟨g2, hg2, he2⟩
        exact (groupLoop_flatten_perm t _).subset hfl
      have hnm : matchesSeed t seed e2 = false := by
        have := (List.mem_filter.mp he2B).2
        simpa using this
      rcases List.mem_cons.mp he1 with he1s | he1f
      · have hm : matchesSeed t seed e2 = true :=
          matchesSeed_of_norm_eq t ht seed (by rw [← hnorm, he1s])
        rw [hm] at hnm
        exact Bool.noConfusion hnm
      · have hm1 : matchesSeed t seed e1 = true := (List.mem_filter.mp he1f).2
        have hm : matchesSeed t seed e2 = true := by
          rw [← matchesSeed_congr t seed hnorm]
          exact hm1
        rw [hm] at hnm
        exact Bool.noConfusion hnm
    · exact ih

theorem groupLoop_ne_nil (t : Rat) (l : List NameEntry) (g : List NameEntry)
    (hg : g ∈ groupLoop t l) : g ≠ [] := by
  induction l using groupLoop.induct t with
  | case1 => simp [groupLoop] at hg
  | case2 seed rest ih =>
    rw [groupLoop] at hg
    rcases List.mem_cons.mp hg with h | h
    · rw [h]
      exact List.cons_ne_nil _ _
    · exact ih h

theorem groupLoop_entries_mem (t : Rat) (l : List NameEntry) (g : List NameEntry)
    (hg : g ∈ groupLoop t l) (e : NameEntry) (he : e ∈ g) : e ∈ l :=
  (groupLoop_flatten_perm t l).subset (List.mem_flatten.mpr ⟨g, hg, he⟩)

theorem findCanonicalName_mem_normalized (g : List NameEntry) (hne : g ≠ [])
    (hn : ∀ e ∈ g, e.normalized = normalizeName e.original) :
    ∃ e ∈ g, findCanonicalName g = e.normalized := by
  obtain ⟨w, hw, hfc, _⟩ := findCanonicalName_spec g hne
  rcases List.mem_map.mp hw with ⟨e, he, horig⟩
  exact ⟨e, he, by rw [hfc, ← horig, ← hn e he]⟩

theorem lookupA_foldl_setAssoc_not_mem {β : Type _} (ps : List (String × β))
    (init : List (String × β)) (k : String) (h : k ∉ ps.map Prod.fst) :
    lookupA (ps.foldl (fun m p => setAssoc m p.1 p.2) init) k = lookupA init k := by
  induction ps generalizing init with
  | nil => rfl
  | cons p rest ih =>
    rw [List.foldl_cons]
    simp only [List.map_cons, List.mem_cons] at h
    push_neg at h
    rw [ih _ h.2, lookupA_setAssoc_ne _ _ _ _ h.1]

theorem lookupA_foldl_setAssoc_mem {β : Type _} (ps : List (String × β))
    (init : List (String × β)) (k : String) (v : β) (hnd : (ps.map Prod.fst).Nodup)
    (hmem : (k, v) ∈ ps) :
    lookupA (ps.foldl (fun m p => setAssoc m p.1 p.2) init) k = some v := by
  induction ps generalizing init with
  | nil => simp at hmem
  | cons p rest ih =>
    simp only [List.map_cons, List.nodup_cons] at hnd
    rw [List.foldl_cons]
    rcases List.mem_cons.mp hmem with h | h
    · have hp1 : p.1 = k := by rw [← h]
      have hk : k ∉ rest.map Prod.fst := by
        intro hmem2
        exact hnd.1 (hp1 ▸ hmem2)
      rw [lookupA_foldl_setAssoc_not_mem rest _ k hk]
      have hp2 : p.2 = v := by rw [← h]
      rw [show setAssoc init p.1 p.2 = setAssoc init k v by rw [hp1, hp2]]
      exact lookupA_setAssoc_self _ _ _
    · exact ih _ hnd.2 h

theorem foldl_inner_foldl {α β γ : Type _} (G : List α) (h : α → List γ)
    (step : β → γ → β) (init : β) :
    G.foldl (fun m g => (h g).foldl step m) init = (G.flatMap h).foldl step init := by
  induction G generalizing init with
  | nil => rfl
  | cons g rest ih =>
    rw [List.foldl_cons, List.flatMap_cons, List.foldl_append]
    exact ih _

theorem nodupKeys_nameCounts (data : List Row) (col : String) :
    ((data.foldl
      (fun m row =>
        let name := jsTrimStr (getCell row col)
        if name ≠ "" then upsert m name (· + 1) 0 else m)
      []).map Prod.fst).Nodup := by
  suffices h : ∀ init : List (String × Nat), (init.map Prod.fst).Nodup →
      ((data.foldl
        (fun m row =>
          let name := jsTrimStr (getCell row col)
          if name ≠ "" then upsert m name (· + 1) 0 else m)
        init).map Prod.fst).Nodup by
    exact h [] (by simp)
  induction data with
  | nil => intro init h; exact h
  | cons row rest ih =>
    intro init h
    rw [List.foldl_cons]
    apply ih
    dsimp only
    split
    · exact nodupKeys_upsert _ _ _ _ h
    · exact h

theorem mkNameData_normalized (names : List (String × Nat)) (e : NameEntry)
    (he : e ∈ mkNameData names) : e.normalized = normalizeName e.original := by
  unfold mkNameData at he
  rcases List.mem_map.mp he with ⟨p, _, hp⟩
  rw [← hp]

theorem groupSimilarNames_canonicals_nodup (names : List (String × Nat)) (t : Rat)
    (ht : t ≤ 1) : ((groupSimilarNames names t).map NameGroup.canonical).Nodup := by
  unfold groupSimilarNames
  rw [List.map_map]
  apply List.pairwise_map.mpr
  have hpw := groupLoop_pairwise_norm t ht
    ((mkNameData names).mergeSort fun a b => b.count ≤ a.count)
  have hpw2 := List.Pairwise.and_mem.mp hpw
  refine hpw2.imp ?_
  intro g1 g2 hr
  rcases hr with ⟨hg1, hg2, hnorm⟩
  have hent : ∀ g, g ∈ groupLoop t ((mkNameData names).mergeSort fun a b => b.count ≤ a.count) →
      ∀ e ∈ g, e.normalized = normalizeName e.original := by
    intro g hg e he
    have hmem := groupLoop_entries_mem t _ g hg e he
    rw [List.mem_mergeSort] at hmem
    exact mkNameData_normalized names e hmem
  obtain ⟨e1, he1, hc1⟩ := findCanonicalName_mem_normalized g1
    (groupLoop_ne_nil t _ g1 hg1) (hent g1 hg1)
  obtain ⟨e2, he2, hc2⟩ := findCanonicalName_mem_normalized g2
    (groupLoop_ne_nil t _ g2 hg2) (hent g2 hg2)
  simp only [Function.comp_apply]
  intro hcontra
  apply hnorm e1 he1 e2 he2
  rw [← hc1, ← hc2]
  exact hcontra

theorem createNameMapping_groups_eq (data : List Row) (col : String) :
    (createNameMapping data col).groups =
      groupSimilarNames
        (data.foldl
          (fun m row =>
            let name := jsTrimStr (getCell row col)
            if name ≠ "" then upsert m name (· + 1) 0 else m)
          []) := rfl

theorem createNameMapping_mapping_eq (data : List Row) (col : String) :
    (createNameMapping data col).mapping =
      ((createNameMapping data col).groups).foldl
        (fun m g => g.variants.foldl (fun m' v => setAssoc m' v g.canonical) m) [] := rfl

theorem createNameMapping_reverseMapping_eq (data : List Row) (col : String) :
    (createNameMapping data col).reverseMapping =
      ((createNameMapping data col).groups).foldl
        (fun m g => setAssoc m g.canonical g.variants) [] := rfl

theorem variantsFlatten_nodup (data : List Row) (col : String) :
    ((((createNameMapping data col).groups).map NameGroup.variants).flatten).Nodup := by
  rw [createNameMapping_groups_eq]
  have hnd := nodupKeys_nameCounts data col
  have hperm := (groupSimilarNames_partition _ (3 / 4) hnd).1
  exact (hperm.nodup_iff).mpr hnd

theorem createNameMapping_mapping_lookup (data : List Row) (col : String) (g : NameGroup)
    (hg : g ∈ (createNameMapping data col).groups) (v : String) (hv : v ∈ g.variants) :
    lookupA (createNameMapping data col).mapping v = some g.canonical := by
  rw [createNameMapping_mapping_eq]
  have hconv : ∀ (G : List NameGroup) (init : List (String × String)),
      G.foldl (fun m g => g.variants.foldl (fun m' v => setAssoc m' v g.canonical) m) init =
        (G.flatMap fun g => g.variants.map fun v => (v, g.canonical)).foldl
          (fun m p => setAssoc m p.1 p.2) init := by
    intro G init
    rw [← foldl_inner_foldl]
    congr 1
    funext m g
    rw [List.foldl_map]
  rw [hconv]
  apply lookupA_foldl_setAssoc_mem
  · have hkeys : (((createNameMapping data col).groups).flatMap
        (fun g => g.variants.map fun v => (v, g.canonical))).map Prod.fst =
          (((createNameMapping data col).groups).map NameGroup.variants).flatten := by
      induction (createNameMapping data col).groups with
      | nil => rfl
      | cons a rest ih =>
        rw [List.flatMap_cons, List.map_append, ih, List.map_cons, List.flatten_cons,
          List.map_map]
        congr 1
        rw [show (Prod.fst ∘ fun v => (v, a.canonical)) = @id String by funext x; rfl]
        exact List.map_id _
    rw [hkeys]
    exact variantsFlatten_nodup data col
  · exact List.mem_flatMap.mpr ⟨g, hg, List.mem_map.mpr ⟨v, hv, rfl⟩⟩

theorem createNameMapping_reverseMapping_lookup (data : List Row) (col : String)
    (g : NameGroup) (hg : g ∈ (createNameMapping data col).groups) :
    lookupA (createNameMapping data col).reverseMapping g.canonical = some g.variants := by
  rw [createNameMapping_reverseMapping_eq]
  rw [show ((createNameMapping data col).groups).foldl
        (fun m g => setAssoc m g.canonical g.variants) [] =
      (((createNameMapping data col).groups).map fun g => (g.canonical, g.variants)).foldl
        (fun m p => setAssoc m p.1 p.2) [] by rw [List.foldl_map]]
  apply lookupA_foldl_setAssoc_mem
  · rw [List.map_map]
    rw [show (Prod.fst ∘ fun g : NameGroup => (g.canonical, g.variants)) =
        NameGroup.canonical by funext x; rfl]
    rw [createNameMapping_groups_eq]
    exact groupSimilarNames_canonicals_nodup _ (3 / 4) (by norm_num)
  · exact List.mem_map.mpr ⟨g, hg, rfl⟩

theorem expandFacultyValues_mem_iff (data : List Row) (col : String) (g : NameGroup)
    (hg : g ∈ (createNameMapping data col).groups) (hc : g.canonical ≠ "")
    (vs : List String) (hne : vs ≠ []) (hsub : ∀ u ∈ vs, u ∈ g.variants) (x : String) :
    x ∈ expandFacultyValues (createNameMapping data col) vs ↔ x ∈ g.variants := by
  have hone : ∀ u ∈ vs,
      (match lookupA (createNameMapping data col).reverseMapping
          (match lookupA (createNameMapping data col).mapping u with
            | some c => if c = "" then u else c
            | none => u) with
        | some l => l
        | none => [u]) = g.variants := by
    intro u hu
    rw [createNameMapping_mapping_lookup data col g hg u (hsub u hu)]
    simp only [if_neg hc]
    rw [createNameMapping_reverseMapping_lookup data col g hg]
  unfold expandFacultyValues
  rw [List.mem_flatMap]
  constructor
  · rintro ⟨u, hu, hx⟩
    rwa [hone u hu] at hx
  · intro hx
    refine ⟨vs.head hne, List.head_mem hne, ?_⟩
    rw [hone (vs.head hne) (List.head_mem hne)]
    exact hx

/-- C3 counterexample: on the dataset with faculty names `"."` and `".."`,
both normalize to the empty string and form one group with canonical `""`;
selecting the single variant `"."` matches only its own row, while selecting
all variants of the group matches both rows. -/
theorem applyFilters_variant_expansion_cex :
    (createNameMapping dotData "Faculty").groups =
      [{ canonical := "", variants := [".", ".."], totalCount := 2 }] ∧
    applyFilters dotData [("Faculty", ["."])] (some (createNameMapping dotData "Faculty"))
        (some "Faculty") = [[("Faculty", ".")]] ∧
    applyFilters dotData [("Faculty", [".", ".."])]
        (some (createNameMapping dotData "Faculty")) (some "Faculty") = dotData ∧
    applyFilters dotData [("Faculty", ["."])] (some (createNameMapping dotData "Faculty"))
        (some "Faculty") ≠
      applyFilters dotData [("Faculty", [".", ".."])]
        (some (createNameMapping dotData "Faculty")) (some "Faculty") := by
  with_unfolding_all decide

/-- C3 (amended): for every dataset and faculty column, and every group of the
computed name mapping whose canonical label is non-empty, filtering on any
single variant of the group returns exactly the same row set as filtering on
all the group's variants. -/
theorem applyFilters_variant_expansion (data : List Row) (col : String) (g : NameGroup)
    (hg : g ∈ (createNameMapping data col).groups) (hc : g.canonical ≠ "")
    (v : String) (hv : v ∈ g.variants) :
    applyFilters data [(col, [v])] (some (createNameMapping data col)) (some col) =
      applyFilters data [(col, g.variants)] (some (createNameMapping data col)) (some col) := by
  rw [applyFilters_eq_filter, applyFilters_eq_filter]
  have hentL : (([(col, [v])].filter fun p => !p.2.isEmpty).map
      (expandEntry (some (createNameMapping data col)) (some col))) =
        [(col, expandFacultyValues (createNameMapping data col) [v])] := by
    simp [expandEntry]
  have hentR : (([(col, g.variants)].filter fun p => !p.2.isEmpty).map
      (expandEntry (some (createNameMapping data col)) (some col))) =
        [(col, expandFacultyValues (createNameMapping data col) g.variants)] := by
    have hvne : g.variants.isEmpty = false :=
      List.isEmpty_eq_false_iff_exists_mem.mpr ⟨v, hv⟩
    simp [expandEntry, hvne]
  rw [hentL, hentR]
  apply List.filter_congr
  intro row _
  unfold passesEntries
  simp only [List.all_cons, List.all_nil, Bool.and_true]
  have hiffL := expandFacultyValues_mem_iff data col g hg hc [v] (by simp)
    (by intro u hu; rw [List.mem_singleton.mp hu]; exact hv)
  have hiffR := expandFacultyValues_mem_iff data col g hg hc g.variants
    (List.ne_nil_of_mem hv) (fun u hu => hu)
  apply Bool.eq_iff_iff.mpr
  constructor
  · intro h
    exact List.elem_eq_true_of_mem
      ((hiffR _).mpr ((hiffL _).mp (List.mem_of_elem_eq_true h)))
  · intro h
    exact List.elem_eq_true_of_mem
      ((hiffL _).mpr ((hiffR _).mp (List.mem_of_elem_eq_true h)))

theorem applyFilters_variant_expansion_witness :
    applyFilters raoData [("Faculty", ["Dr. Rao"])]
        (some (createNameMapping raoData "Faculty")) (some "Faculty") =
      applyFilters raoData [("Faculty", ["Dr. Rao", "Rao Sir"])]
        (some (createNameMapping raoData "Faculty")) (some "Faculty") := by
  have h := applyFilters_variant_expansion raoData "Faculty"
    { canonical := "Rao", variants := ["Dr. Rao", "Rao Sir"], totalCount := 2 }
    (by with_unfolding_all decide) (by decide) "Dr. Rao" (by decide)
  exact h

/-! ## Idempotency of `normalizeName` on honorific-free outputs (C1) -/

theorem stepDot_eq_self (l : List Char) (h : ∀ c ∈ l, c ≠ '.') : stepDot l = l := by
  induction l with
  | nil => simp [stepDot]
  | cons c cs ih =>
    rw [stepDot, if_neg (h c (List.mem_cons_self c cs))]
    rw [ih fun d hd => h d (List.mem_cons_of_mem c hd)]

set_option maxHeartbeats 1000000 in
theorem stepWsDot_eq_self (l : List Char) (h : ∀ c ∈ l, c ≠ '.') : stepWsDot l = l := by
  induction l with
  | nil => simp [stepWsDot]
  | cons c cs ih =>
    rw [stepWsDot, if_neg (h c (List.mem_cons_self c cs))]
    have hcond : (jsIsWs c && ((cs.dropWhile jsIsWs).head? == some '.')) = false := by
      rw [Bool.and_eq_false_iff]
      right
      rw [beq_eq_false_iff_ne]
      intro hh
      have hdot : '.' ∈ cs.dropWhile jsIsWs :=
        List.mem_of_mem_head? (Option.mem_def.mpr hh)
      exact h '.' (List.mem_cons_of_mem c ((List.dropWhile_sublist jsIsWs).subset hdot)) rfl
    rw [hcond]
    simp only [Bool.false_eq_true, if_false]
    rw [ih fun d hd => h d (List.mem_cons_of_mem c hd)]

set_option maxHeartbeats 1000000 in
theorem collapseWs_append_nonWs (w t : List Char) (h : ∀ c ∈ w, jsIsWs c = false) :
    collapseWs (w ++ t) = w ++ collapseWs t := by
  induction w with
  | nil => rfl
  | cons c cs ih =>
    rw [List.cons_append, collapseWs]
    rw [if_neg (by rw [h c (List.mem_cons_self c cs)]; exact Bool.false_ne_true)]
    rw [ih fun d hd => h d (List.mem_cons_of_mem c hd)]
    rfl

theorem intercalate_sp_nil : List.intercalate [' '] ([] : List (List Char)) = [] := rfl

theorem intercalate_sp_single (w : List Char) : List.intercalate [' '] [w] = w := by
  simp [List.intercalate]

theorem intercalate_sp_cons2 (w y : List Char) (rest : List (List Char)) :
    List.intercalate [' '] (w :: y :: rest) =
      w ++ ' ' :: List.intercalate [' '] (y :: rest) := by
  simp only [List.intercalate, List.intersperse]
  rfl

theorem inter_head_decomp (y : List Char) (rest : List (List Char)) (hy : y ≠ []) :
    ∃ c t, List.intercalate [' '] (y :: rest) = c :: t ∧ c ∈ y := by
  cases y with
  | nil => exact absurd rfl hy
  | cons c ys =>
    cases rest with
    | nil => exact ⟨c, ys, intercalate_sp_single _, List.mem_cons_self _ _⟩
    | cons z rs =>
      refine ⟨c, ys ++ ' ' :: List.intercalate [' '] (z :: rs), ?_, List.mem_cons_self _ _⟩
      rw [intercalate_sp_cons2]
      rfl

set_option maxHeartbeats 1000000 in
theorem collapseWs_inter (W : List (List Char))
    (ha : ∀ w ∈ W, w ≠ []) (hb : ∀ w ∈ W, ∀ c ∈ w, jsIsWs c = false) :
    collapseWs (List.intercalate [' '] W) = List.intercalate [' '] W := by
  have h0 : collapseWs ([] : List Char) = [] := by rw [collapseWs]
  induction W with
  | nil => rw [intercalate_sp_nil, h0]
  | cons w rest ih =>
    cases rest with
    | nil =>
      rw [intercalate_sp_single]
      have h := collapseWs_append_nonWs w [] (fun c hc => hb w (List.mem_cons_self _ _) c hc)
      rw [List.append_nil] at h
      rw [h, h0, List.append_nil]
    | cons y rs =>
      rw [intercalate_sp_cons2]
      rw [collapseWs_append_nonWs w _ (fun c hc => hb w (List.mem_cons_self _ _) c hc)]
      congr 1
      rw [collapseWs, if_pos (by decide : jsIsWs ' ' = true)]
      obtain ⟨c, t, hct, hcy⟩ := inter_head_decomp y rs (ha y (List.mem_cons_of_mem _ (List.mem_cons_self _ _)))
      have hcw : jsIsWs c = false := hb y (List.mem_cons_of_mem _ (List.mem_cons_self _ _)) c hcy
      rw [hct, List.dropWhile_cons_of_neg (by rw [hcw]; exact Bool.false_ne_true), ← hct]
      rw [ih (fun v hv => ha v (List.mem_cons_of_mem _ hv))
        (fun v hv => hb v (List.mem_cons_of_mem _ hv))]

theorem splitSp_nosp (w : List Char) (h : ∀ c ∈ w, c ≠ ' ') : splitSp w = [w] := by
  induction w with
  | nil => rfl
  | cons c cs ih =>
    rw [splitSp, if_neg (h c (List.mem_cons_self _ _)), ih (fun d hd => h d (List.mem_cons_of_mem c hd))]

theorem splitSp_append_sp (w t : List Char) (h : ∀ c ∈ w, c ≠ ' ') :
    splitSp (w ++ ' ' :: t) = w :: splitSp t := by
  induction w with
  | nil =>
    rw [List.nil_append, splitSp, if_pos rfl]
  | cons c cs ih =>
    rw [List.cons_append, splitSp, if_neg (h c (List.mem_cons_self _ _)),
      ih (fun d hd => h d (List.mem_cons_of_mem c hd))]

theorem splitSp_inter (W : List (List Char)) (ha : ∀ w ∈ W, w ≠ [])
    (hsp : ∀ w ∈ W, ∀ c ∈ w, c ≠ ' ') (hW : W ≠ []) :
    splitSp (List.intercalate [' '] W) = W := by
  induction W with
  | nil => exact absurd rfl hW
  | cons w rest ih =>
    cases rest with
    | nil =>
      rw [intercalate_sp_single]
      exact splitSp_nosp w (hsp w (List.mem_cons_self _ _))
    | cons y rs =>
      rw [intercalate_sp_cons2, splitSp_append_sp w _ (hsp w (List.mem_cons_self _ _))]
      rw [ih (fun v hv => ha v (List.mem_cons_of_mem _ hv))
        (fun v hv => hsp v (List.mem_cons_of_mem _ hv)) (List.cons_ne_nil _ _)]

theorem mem_inter_sp (W : List (List Char)) (c : Char) (hc : c ∈ List.intercalate [' '] W) :
    c = ' ' ∨ ∃ w, w ∈ W ∧ c ∈ w := by
  induction W with
  | nil => exact absurd hc (by simp [intercalate_sp_nil])
  | cons w rest ih =>
    cases rest with
    | nil =>
      rw [intercalate_sp_single] at hc
      exact Or.inr ⟨w, List.mem_cons_self _ _, hc⟩
    | cons y rs =>
      rw [intercalate_sp_cons2] at hc
      rcases List.mem_append.mp hc with h1 | h2
      · exact Or.inr ⟨w, List.mem_cons_self _ _, h1⟩
      · rcases List.mem_cons.mp h2 with h3 | h4
        · exact Or.inl h3
        · rcases ih h4 with h5 | ⟨v, hv1, hv2⟩
          · exact Or.inl h5
          · exact Or.inr ⟨v, List.mem_cons_of_mem _ hv1, hv2⟩

theorem inter_getLast_mem (W : List (List Char)) (ha : ∀ w ∈ W, w ≠ []) (hW : W ≠ []) :
    ∃ c, (List.intercalate [' '] W).getLast? = some c ∧ ∃ w, w ∈ W ∧ c ∈ w := by
  induction W with
  | nil => exact absurd rfl hW
  | cons w rest ih =>
    cases rest with
    | nil =>
      have hw : w ≠ [] := ha w (List.mem_cons_self _ _)
      refine ⟨w.getLast hw, ?_, w, List.mem_cons_self _ _, List.getLast_mem hw⟩
      rw [intercalate_sp_single]
      exact List.getLast?_eq_getLast w hw
    | cons y rs =>
      obtain ⟨c, hc1, w', hw', hc2⟩ := ih (fun v hv => ha v (List.mem_cons_of_mem _ hv))
        (List.cons_ne_nil _ _)
      refine ⟨c, ?_, w', List.mem_cons_of_mem _ hw', hc2⟩
      rw [intercalate_sp_cons2]
      obtain ⟨c0, t0, hz, _⟩ := inter_head_decomp y rs
        (ha y (List.mem_cons_of_mem _ (List.mem_cons_self _ _)))
      rw [hz]
      rw [List.getLast?_append, List.getLast?_cons_cons, ← hz, hc1]
      rfl

theorem jsTrim_inter (W : List (List Char)) (ha : ∀ w ∈ W, w ≠ [])
    (hb : ∀ w ∈ W, ∀ c ∈ w, jsIsWs c = false) :
    jsTrim (List.intercalate [' '] W) = List.intercalate [' '] W := by
  cases W with
  | nil => rfl
  | cons w rest =>
    obtain ⟨c, t, hz, hcw⟩ := inter_head_decomp w rest (ha w (List.mem_cons_self _ _))
    have h1 : (List.intercalate [' '] (w :: rest)).dropWhile jsIsWs =
        List.intercalate [' '] (w :: rest) := by
      rw [hz]
      exact List.dropWhile_cons_of_neg
        (by rw [hb w (List.mem_cons_self _ _) c hcw]; exact Bool.false_ne_true)
    obtain ⟨cl, hl1, w', hw', hl2⟩ := inter_getLast_mem (w :: rest) ha (List.cons_ne_nil _ _)
    have h2 : (List.intercalate [' '] (w :: rest)).reverse.dropWhile jsIsWs =
        (List.intercalate [' '] (w :: rest)).reverse := by
      have hh : (List.intercalate [' '] (w :: rest)).reverse.head? = some cl := by
        rw [List.head?_reverse]
        exact hl1
      cases hr : (List.intercalate [' '] (w :: rest)).reverse with
      | nil => rfl
      | cons a tr =>
        rw [hr] at hh
        have ha2 : a = cl := by simpa using hh
        refine List.dropWhile_cons_of_neg ?_
        rw [ha2, hb w' hw' cl hl2]
        exact Bool.false_ne_true
    unfold jsTrim
    rw [h1, h2, List.reverse_reverse]

theorem map_intercalate_sp (f : Char → Char) (hf : f ' ' = ' ') (W : List (List Char)) :
    (List.intercalate [' '] W).map f = List.intercalate [' '] (W.map (List.map f)) := by
  induction W with
  | nil => rfl
  | cons w rest ih =>
    cases rest with
    | nil =>
      rw [intercalate_sp_single, List.map_cons, List.map_nil, intercalate_sp_single]
    | cons y rs =>
      simp only [intercalate_sp_cons2, List.map_append, List.map_cons, hf]
      rw [ih, List.map_cons]

theorem map_toLower_titleCaseWord (w : List Char) (h : ∀ c ∈ w, c.toLower = c) :
    (titleCaseWord w).map Char.toLower = w := by
  cases w with
  | nil => rfl
  | cons c cs =>
    rw [titleCaseWord, List.map_cons, toLower_toUpper, h c (List.mem_cons_self _ _)]
    congr 1
    rw [List.map_map]
    have : ∀ d ∈ cs, (Char.toLower ∘ Char.toLower) d = d := by
      intro d hd
      simp only [Function.comp_apply, toLower_toLower]
      exact h d (List.mem_cons_of_mem c hd)
    exact (List.map_congr_left this).trans (List.map_id' cs)

theorem titleCaseWord_ne_nil (w : List Char) (h : w ≠ []) : titleCaseWord w ≠ [] := by
  cases w with
  | nil => exact absurd rfl h
  | cons c cs => exact List.cons_ne_nil _ _

theorem titleCaseWord_chars (w : List Char) (hb : ∀ c ∈ w, jsIsWs c = false ∧ c ≠ '.') :
    ∀ c ∈ titleCaseWord w, jsIsWs c = false ∧ c ≠ '.' := by
  cases w with
  | nil => intro c hc; exact absurd hc (by simp [titleCaseWord])
  | cons a cs =>
    intro c hc
    rw [titleCaseWord] at hc
    rcases List.mem_cons.mp hc with h1 | h2
    · subst h1
      obtain ⟨hw, hd⟩ := hb a (List.mem_cons_self _ _)
      refine ⟨?_, ?_⟩
      · rw [jsIsWs_toUpper]; exact hw
      · exact toUpper_ne_dot hd
    · obtain ⟨d, hd1, hd2⟩ := List.mem_map.mp h2
      obtain ⟨hw, hdot⟩ := hb d (List.mem_cons_of_mem a hd1)
      subst hd2
      refine ⟨?_, ?_⟩
      · rw [jsIsWs_toLower]; exact hw
      · exact toLower_ne_dot hdot

theorem mem_jsTrim (l : List Char) (c : Char) (hc : c ∈ jsTrim l) : c ∈ l := by
  unfold jsTrim at hc
  rw [List.mem_reverse] at hc
  have h1 := (List.dropWhile_sublist jsIsWs).subset hc
  rw [List.mem_reverse] at h1
  exact (List.dropWhile_sublist jsIsWs).subset h1

theorem mem_collapseWs (l : List Char) : ∀ c ∈ collapseWs l, c = ' ' ∨ c ∈ l := by
  induction l using collapseWs.induct with
  | case1 =>
    intro c hc
    rw [collapseWs] at hc
    exact absurd hc (List.not_mem_nil c)
  | case2 d cs hd ih =>
    intro c hc
    rw [collapseWs, if_pos hd] at hc
    rcases List.mem_cons.mp hc with h1 | h1
    · exact Or.inl h1
    · rcases ih c h1 with h2 | h2
      · exact Or.inl h2
      · exact Or.inr (List.mem_cons_of_mem _ ((List.dropWhile_sublist _).subset h2))
  | case3 d cs hd ih =>
    intro c hc
    rw [collapseWs, if_neg hd] at hc
    rcases List.mem_cons.mp hc with h1 | h1
    · exact Or.inr (h1 ▸ List.mem_cons_self _ _)
    · rcases ih c h1 with h2 | h2
      · exact Or.inl h2
      · exact Or.inr (List.mem_cons_of_mem _ h2)

theorem ws_collapseWs (l : List Char) : ∀ c ∈ collapseWs l, jsIsWs c = true → c = ' ' := by
  induction l using collapseWs.induct with
  | case1 =>
    intro c hc
    rw [collapseWs] at hc
    exact absurd hc (List.not_mem_nil c)
  | case2 d cs hd ih =>
    intro c hc hws
    rw [collapseWs, if_pos hd] at hc
    rcases List.mem_cons.mp hc with h1 | h1
    · exact h1
    · exact ih c h1 hws
  | case3 d cs hd ih =>
    intro c hc hws
    rw [collapseWs, if_neg hd] at hc
    rcases List.mem_cons.mp hc with h1 | h1
    · exact absurd (h1 ▸ hws) hd
    · exact ih c h1 hws

theorem mem_stepDot (l : List Char) : ∀ c ∈ stepDot l, c = ' ' ∨ c ∈ l := by
  induction l using stepDot.induct with
  | case1 =>
    intro c hc
    rw [stepDot] at hc
    exact absurd hc (List.not_mem_nil c)
  | case2 cs ih =>
    intro c hc
    rw [stepDot, if_pos rfl] at hc
    rcases List.mem_cons.mp hc with h1 | h1
    · exact Or.inl h1
    · rcases ih c h1 with h2 | h2
      · exact Or.inl h2
      · exact Or.inr (List.mem_cons_of_mem _ ((List.dropWhile_sublist _).subset h2))
  | case3 d cs hd ih =>
    intro c hc
    rw [stepDot, if_neg hd] at hc
    rcases List.mem_cons.mp hc with h1 | h1
    · exact Or.inr (h1 ▸ List.mem_cons_self _ _)
    · rcases ih c h1 with h2 | h2
      · exact Or.inl h2
      · exact Or.inr (List.mem_cons_of_mem _ h2)

theorem stepDot_no_dot (l : List Char) : ∀ c ∈ stepDot l, c ≠ '.' := by
  induction l using stepDot.induct with
  | case1 =>
    intro c hc
    rw [stepDot] at hc
    exact absurd hc (List.not_mem_nil c)
  | case2 cs ih =>
    intro c hc
    rw [stepDot, if_pos rfl] at hc
    rcases List.mem_cons.mp hc with h1 | h1
    · subst h1; decide
    · exact ih c h1
  | case3 d cs hd ih =>
    intro c hc
    rw [stepDot, if_neg hd] at hc
    rcases List.mem_cons.mp hc with h1 | h1
    · subst h1; exact hd
    · exact ih c h1

theorem mem_stepWsDot (l : List Char) : ∀ c ∈ stepWsDot l, c = ' ' ∨ c ∈ l := by
  induction l using stepWsDot.induct with
  | case1 =>
    intro c hc
    rw [stepWsDot] at hc
    exact absurd hc (List.not_mem_nil c)
  | case2 cs ih =>
    intro c hc
    rw [stepWsDot, if_pos rfl] at hc
    rcases List.mem_cons.mp hc with h1 | h1
    · exact Or.inl h1
    · rcases ih c h1 with h2 | h2
      · exact Or.inl h2
      · exact Or.inr (List.mem_cons_of_mem _ ((List.dropWhile_sublist _).subset h2))
  | case3 d cs hd hd2 ih =>
    intro c hc
    rw [stepWsDot, if_neg hd, if_pos hd2] at hc
    rcases List.mem_cons.mp hc with h1 | h1
    · exact Or.inl h1
    · rcases ih c h1 with h2 | h2
      · exact Or.inl h2
      · refine Or.inr (List.mem_cons_of_mem _ ?_)
        exact (List.dropWhile_sublist _).subset
          ((List.tail_sublist _).subset ((List.dropWhile_sublist _).subset h2))
  | case4 d cs hd hd2 ih =>
    intro c hc
    rw [stepWsDot, if_neg hd, if_neg hd2] at hc
    rcases List.mem_cons.mp hc with h1 | h1
    · exact Or.inr (h1 ▸ List.mem_cons_self _ _)
    · rcases ih c h1 with h2 | h2
      · exact Or.inl h2
      · exact Or.inr (List.mem_cons_of_mem _ h2)

theorem splitSp_chars (l : List Char) : ∀ w ∈ splitSp l, ∀ c ∈ w, c ∈ l ∧ c ≠ ' ' := by
  induction l with
  | nil =>
    intro w hw c hc
    have hwn : w = [] := by simpa [splitSp] using hw
    subst hwn
    exact absurd hc (List.not_mem_nil c)
  | cons d cs ih =>
    intro w hw c hc
    rw [splitSp] at hw
    by_cases hd : d = ' '
    · rw [if_pos hd] at hw
      rcases List.mem_cons.mp hw with h1 | h1
      · subst h1; exact absurd hc (List.not_mem_nil c)
      · obtain ⟨h2, h3⟩ := ih w h1 c hc
        exact ⟨List.mem_cons_of_mem _ h2, h3⟩
    · rw [if_neg hd] at hw
      cases hsp : splitSp cs with
      | nil =>
        rw [hsp] at hw
        have hwd : w = [d] := by simpa using hw
        subst hwd
        have hcd : c = d := by simpa using hc
        subst hcd
        exact ⟨List.mem_cons_self _ _, hd⟩
      | cons w0 rest =>
        rw [hsp] at hw
        have hw0 : w0 ∈ splitSp cs := by rw [hsp]; exact List.mem_cons_self _ _
        rcases List.mem_cons.mp hw with h1 | h1
        · subst h1
          rcases List.mem_cons.mp hc with h2 | h2
          · subst h2; exact ⟨List.mem_cons_self _ _, hd⟩
          · obtain ⟨h3, h4⟩ := ih w0 hw0 c h2
            exact ⟨List.mem_cons_of_mem _ h3, h4⟩
        · have hwr : w ∈ splitSp cs := by rw [hsp]; exact List.mem_cons_of_mem _ h1
          obtain ⟨h3, h4⟩ := ih w hwr c hc
          exact ⟨List.mem_cons_of_mem _ h3, h4⟩

theorem mem_stripLeadTok (ws : List (List Char)) (w : List Char) (h : w ∈ stripLeadTok ws) :
    w ∈ ws := by
  rcases ws with _ | ⟨w0, _ | ⟨w1, rest⟩⟩
  · exact h
  · exact h
  · simp only [stripLeadTok] at h
    split at h
    · exact List.mem_cons_of_mem _ h
    · exact h

theorem mem_stripTrailTok (ws : List (List Char)) (w : List Char) (h : w ∈ stripTrailTok ws) :
    w ∈ ws := by
  unfold stripTrailTok at h
  split at h
  · split at h
    · split at h
      · exact (List.dropLast_sublist ws).subset h
      · exact h
    · exact h
  · exact h

theorem normWords_props (s : String) :
    ∀ w ∈ normWords s, w ≠ [] ∧ ∀ c ∈ w, jsIsWs c = false ∧ c ≠ '.' ∧ c.toLower = c := by
  intro w hw
  unfold normWords at hw
  have hwr : w ∈ rawWords s := mem_stripLeadTok _ w (mem_stripTrailTok _ w hw)
  unfold rawWords at hwr
  obtain ⟨hw1, hw2⟩ := List.mem_filter.mp hwr
  refine ⟨by simpa using hw2, ?_⟩
  intro c hc
  obtain ⟨hcl, hcsp⟩ := splitSp_chars _ w hw1 c hc
  have hdot : c ≠ '.' := by
    rcases mem_stepWsDot _ c hcl with h1 | h1
    · subst h1; decide
    · exact stepDot_no_dot _ c h1
  have hin : c ∈ collapseWs (jsTrim (s.toList.map Char.toLower)) := by
    rcases mem_stepWsDot _ c hcl with h1 | h1
    · exact absurd h1 hcsp
    · rcases mem_stepDot _ c h1 with h2 | h2
      · exact absurd h2 hcsp
      · exact h2
  have hws : jsIsWs c = false := by
    cases hb : jsIsWs c
    · rfl
    · exact absurd (ws_collapseWs _ c hin hb) hcsp
  have hlw : c.toLower = c := by
    rcases mem_collapseWs _ c hin with h1 | h1
    · exact absurd h1 hcsp
    · have h5 := mem_jsTrim _ c h1
      obtain ⟨d, _, hd⟩ := List.mem_map.mp h5
      rw [← hd]
      exact toLower_toLower d
  exact ⟨hws, hdot, hlw⟩

/-- **C1** (amended). `normalizeName` is idempotent on every input whose cleaned-up word
list is already honorific-free (a second prefix/suffix-strip pass leaves it unchanged):
for such `s`, `normalizeName (normalizeName s) = normalizeName s`. (Without this guard
the claim is false, see the counterexample: a doubled honorific survives one pass and is
stripped by the next.) -/
theorem normalizeName_idem (s : String)
    (h : stripTrailTok (stripLeadTok (normWords s)) = normWords s) :
    normalizeName (normalizeName s) = normalizeName s := by
  have hprops := normWords_props s
  have ha : ∀ w ∈ normWords s, w ≠ [] := fun w hw => (hprops w hw).1
  have hbws : ∀ w ∈ normWords s, ∀ c ∈ w, jsIsWs c = false :=
    fun w hw c hc => ((hprops w hw).2 c hc).1
  have hbdot : ∀ w ∈ normWords s, ∀ c ∈ w, c ≠ '.' :=
    fun w hw c hc => ((hprops w hw).2 c hc).2.1
  have hlow : ∀ w ∈ normWords s, ∀ c ∈ w, c.toLower = c :=
    fun w hw c hc => ((hprops w hw).2 c hc).2.2
  have haT : ∀ w ∈ (normWords s).map titleCaseWord, w ≠ [] := by
    intro w hw
    obtain ⟨v, hv, rfl⟩ := List.mem_map.mp hw
    exact titleCaseWord_ne_nil v (ha v hv)
  have hbT : ∀ w ∈ (normWords s).map titleCaseWord, ∀ c ∈ w, jsIsWs c = false := by
    intro w hw c hc
    obtain ⟨v, hv, rfl⟩ := List.mem_map.mp hw
    exact (titleCaseWord_chars v (fun d hd => ⟨hbws v hv d hd, hbdot v hv d hd⟩) c hc).1
  have hraw : rawWords (normalizeName s) = normWords s := by
    unfold rawWords
    have htl : (normalizeName s).toList =
        List.intercalate [' '] ((normWords s).map titleCaseWord) := rfl
    rw [htl, map_intercalate_sp Char.toLower (by decide), List.map_map]
    have hmap : (normWords s).map (List.map Char.toLower ∘ titleCaseWord) = normWords s := by
      refine (List.map_congr_left ?_).trans (List.map_id' _)
      intro w hw
      exact map_toLower_titleCaseWord w (hlow w hw)
    rw [hmap, jsTrim_inter _ ha hbws, collapseWs_inter _ ha hbws]
    have hdot2 : ∀ c ∈ List.intercalate [' '] (normWords s), c ≠ '.' := by
      intro c hc
      rcases mem_inter_sp _ c hc with h1 | ⟨w, hw1, hw2⟩
      · subst h1; decide
      · exact hbdot w hw1 c hw2
    rw [stepDot_eq_self _ hdot2, stepWsDot_eq_self _ hdot2]
    cases hWc : normWords s with
    | nil => rw [intercalate_sp_nil]; rfl
    | cons w0 rest =>
      rw [← hWc]
      have hsp : ∀ w ∈ normWords s, ∀ c ∈ w, c ≠ ' ' := by
        intro w hw c hc hcsp
        have hb := hbws w hw c hc
        rw [hcsp] at hb
        exact absurd hb (by decide)
      rw [splitSp_inter _ ha hsp (by rw [hWc]; exact List.cons_ne_nil _ _)]
      refine List.filter_eq_self.mpr ?_
      intro w hw
      simpa using ha w hw
  have hnw : normWords (normalizeName s) = normWords s := by
    unfold normWords
    rw [hraw]
    exact h
  have hfin : normalizeName (normalizeName s) =
      String.mk (List.intercalate [' '] ((normWords (normalizeName s)).map titleCaseWord)) := rfl
  rw [hfin, hnw]
  rfl

/-- **C1** counterexample: `normalizeName` is not idempotent. With a doubled honorific,
one pass strips a single `mr` (title-casing the surviving one), and a second pass strips
the survivor: `"mr mr smith"` maps to `"Mr Smith"`, which maps to `"Smith"`. -/
theorem normalizeName_not_idempotent :
    normalizeName "mr mr smith" = "Mr Smith" ∧
    normalizeName (normalizeName "mr mr smith") = "Smith" ∧
    normalizeName (normalizeName "mr mr smith") ≠ normalizeName "mr mr smith" := by
  refine ⟨by with_unfolding_all decide, by with_unfolding_all decide, ?_⟩
  with_unfolding_all decide

theorem normalizeName_idem_witness :
    (stripTrailTok (stripLeadTok (normWords "DR.  Smith ")) = normWords "DR.  Smith " ∧
      normalizeName (normalizeName "DR.  Smith ") = normalizeName "DR.  Smith ") ∧
    normalizeName "DR.  Smith " = "Smith" ∧
    normalizeName "dr smith" = "Smith" ∧
    normalizeName "Smith" = "Smith" :=
  ⟨⟨by with_unfolding_all decide, normalizeName_idem "DR.  Smith " (by with_unfolding_all decide)⟩,
   by with_unfolding_all decide, by with_unfolding_all decide, by with_unfolding_all decide⟩
